import Mathlib

/-!
Verification of the calendar core of pical (src/app/data/cal.rs).

The development shallowly embeds the Rust code: the `time`-crate date and
offset-datetime values that the calendar code manipulates are modelled as
plain structures over `Int`.  The civil arithmetic (`rata`, `add_days`, ...)
is developed over unbounded integers, and the crate's representable range
(years -9999 to 9999) is enforced exactly where the crate enforces it: the
`next_day` walks return `None` past 9999-12-31 (`step_days`), the weekday
occurrence arithmetic fails past either end of the range
(`checked_next_occurrence`, `checked_nth_next_occurrence`,
`checked_nth_prev_occurrence`), and `replace_year` rejects an out-of-range
year.  Rust `u32 as i32` casts are modelled by the two's-complement wrap
`u32_as_i32`.  Panics (`expect` / `unwrap`) are modelled with
`Except String`, the panic message being the `expect` message.  Fallible
operations return `Option`.
-/

/-- Leap-year test, as in the time crate (`time::util::is_leap_year`):
a year divisible by 4 and not by 100, or divisible by 400. -/
def is_leap_year (y : Int) : Bool :=
  (y % 4 == 0 && y % 100 != 0) || y % 400 == 0

/-- `time::util::days_in_year_month`.  Only meaningful for months 1..=12. -/
def days_in_year_month (y m : Int) : Int :=
  if m = 2 then (if is_leap_year y then 29 else 28)
  else if m = 4 ∨ m = 6 ∨ m = 9 ∨ m = 11 then 30
  else 31

/-- Number of days in year `y` (365 or 366). -/
def days_in_year (y : Int) : Int :=
  if is_leap_year y then 366 else 365

/-- A calendar date, the civil view of `time::Date` (year, month, day). -/
structure Date where
  year : Int
  month : Int
  day : Int
deriving DecidableEq, Repr

/-- Validity of the civil fields: the invariant `time::Date` maintains
(months 1..=12, days 1..=days-in-month).  The year is not bounded by
validity; the crate's representable range -9999..=9999 is enforced by the
fallible operations below exactly where the crate enforces it. -/
def Date.Valid (d : Date) : Prop :=
  1 ≤ d.month ∧ d.month ≤ 12 ∧ 1 ≤ d.day ∧ d.day ≤ days_in_year_month d.year d.month

instance (d : Date) : Decidable d.Valid := by
  unfold Date.Valid; infer_instance

/-- Strict order on dates.  `time::Date` orders by (year, ordinal-day),
which coincides with the lexicographic order on (year, month, day). -/
def Date.lt (a b : Date) : Prop :=
  a.year < b.year ∨ (a.year = b.year ∧
    (a.month < b.month ∨ (a.month = b.month ∧ a.day < b.day)))

/-- Non-strict order on dates (`<=` of `time::Date`). -/
def Date.le (a b : Date) : Prop :=
  Date.lt a b ∨ a = b

instance (a b : Date) : Decidable (Date.lt a b) := by
  unfold Date.lt; infer_instance

instance (a b : Date) : Decidable (Date.le a b) := by
  unfold Date.le; infer_instance

/-- Cumulative number of days strictly before month `m` in year `y`
(0 for January).  Only meaningful for months 1..=12. -/
def days_before_month (y m : Int) : Int :=
  (if m = 1 then 0 else if m = 2 then 31 else if m = 3 then 59
   else if m = 4 then 90 else if m = 5 then 120 else if m = 6 then 151
   else if m = 7 then 181 else if m = 8 then 212 else if m = 9 then 243
   else if m = 10 then 273 else if m = 11 then 304 else 334)
  + (if 3 ≤ m ∧ is_leap_year y then 1 else 0)

/-- Number of leap years `k` with `k < y` relative to a fixed anchor:
used only through differences, so the anchor is irrelevant. -/
def leap_count (y : Int) : Int :=
  (y - 1) / 4 - (y - 1) / 100 + (y - 1) / 400

/-- Linear day number of the first day of year `y`. -/
def year_start (y : Int) : Int :=
  365 * y + leap_count y

/-- Linear day number of a date: a fixed-anchor rata-die count.  Two valid
dates compare identically under `Date.lt` and under `rata` (proved below),
and `rata` advances by one under `next_day`. -/
def rata (d : Date) : Int :=
  year_start d.year + days_before_month d.year d.month + (d.day - 1)

theorem days_in_year_month_bounds {y m : Int} (h1 : 1 ≤ m) (h2 : m ≤ 12) :
    28 ≤ days_in_year_month y m ∧ days_in_year_month y m ≤ 31 := by
  unfold days_in_year_month
  interval_cases m <;> split_ifs <;> omega

theorem days_before_month_succ {y m : Int} (h1 : 1 ≤ m) (h2 : m ≤ 11) :
    days_before_month y (m + 1) = days_before_month y m + days_in_year_month y m := by
  unfold days_before_month days_in_year_month
  rcases Bool.eq_false_or_eq_true (is_leap_year y) with hl | hl <;>
    interval_cases m <;> simp [hl]

theorem days_before_month_last (y : Int) :
    days_before_month y 12 + 31 = days_in_year y := by
  unfold days_before_month days_in_year
  rcases Bool.eq_false_or_eq_true (is_leap_year y) with hl | hl <;> simp [hl]

theorem is_leap_year_spec (y : Int) :
    is_leap_year y = true ↔ ((y % 4 = 0 ∧ ¬ y % 100 = 0) ∨ y % 400 = 0) := by
  unfold is_leap_year
  simp

theorem year_start_succ (y : Int) :
    year_start (y + 1) = year_start y + days_in_year y := by
  have e1 : y + 1 - 1 = y := by ring
  unfold year_start leap_count days_in_year
  rw [e1]
  by_cases hp : (y % 4 = 0 ∧ ¬ y % 100 = 0) ∨ y % 400 = 0
  · rw [if_pos ((is_leap_year_spec y).mpr hp)]
    rcases hp with ⟨h4, h100⟩ | h400 <;> omega
  · rw [if_neg (fun h => hp ((is_leap_year_spec y).mp h))]
    push_neg at hp
    obtain ⟨hp1, hp2⟩ := hp
    by_cases h4 : y % 4 = 0
    · have h100 : y % 100 = 0 := hp1 h4
      omega
    · omega

/-- Successor date: the civil content of `time::Date::next_day`.  The
crate's `next_day` returns `None` exactly at its maximal representable
date 9999-12-31; that failure is carried by `step_days` below, which guards
a whole `next_day` walk with the range check, so the bare successor
function here is total. -/
def next_day (d : Date) : Date :=
  if d.day < days_in_year_month d.year d.month then ⟨d.year, d.month, d.day + 1⟩
  else if d.month < 12 then ⟨d.year, d.month + 1, 1⟩
  else ⟨d.year + 1, 1, 1⟩

/-- Predecessor date (the civil content of `time::Date::previous_day`);
the crate's failure at the minimal date -9999-01-01 is carried by the
range checks of the callers below. -/
def prev_day (d : Date) : Date :=
  if 1 < d.day then ⟨d.year, d.month, d.day - 1⟩
  else if 1 < d.month then ⟨d.year, d.month - 1, days_in_year_month d.year (d.month - 1)⟩
  else ⟨d.year - 1, 12, 31⟩

theorem next_day_valid {d : Date} (h : d.Valid) : (next_day d).Valid := by
  obtain ⟨h1, h2, h3, h4⟩ := h
  unfold next_day
  split_ifs with c1 c2 <;> unfold Date.Valid <;> dsimp only
  · exact ⟨h1, h2, by omega, by omega⟩
  · have b1 := days_in_year_month_bounds (y := d.year) (m := d.month + 1)
      (by omega) (by omega)
    exact ⟨by omega, by omega, by omega, by omega⟩
  · have b2 := days_in_year_month_bounds (y := d.year + 1) (m := 1)
      (by norm_num) (by norm_num)
    exact ⟨by omega, by omega, by omega, by omega⟩

theorem rata_next_day {d : Date} (h : d.Valid) : rata (next_day d) = rata d + 1 := by
  obtain ⟨h1, h2, h3, h4⟩ := h
  unfold next_day
  split_ifs with c1 c2 <;> unfold rata <;> dsimp only
  · omega
  · have hs := days_before_month_succ (y := d.year) h1 (by omega)
    omega
  · have hm : d.month = 12 := by omega
    have hl := days_before_month_last d.year
    have hy := year_start_succ d.year
    rw [hm] at h4 c1 ⊢
    have h12 : days_in_year_month d.year 12 = 31 := by
      unfold days_in_year_month; norm_num
    have h1j : days_before_month (d.year + 1) 1 = 0 := by
      unfold days_before_month; norm_num
    omega

theorem prev_day_valid {d : Date} (h : d.Valid) : (prev_day d).Valid := by
  obtain ⟨h1, h2, h3, h4⟩ := h
  unfold prev_day
  split_ifs with c1 c2 <;> unfold Date.Valid <;> dsimp only
  · exact ⟨h1, h2, by omega, by omega⟩
  · have b1 := days_in_year_month_bounds (y := d.year) (m := d.month - 1)
      (by omega) (by omega)
    exact ⟨by omega, by omega, by omega, by omega⟩
  · have b2 : days_in_year_month (d.year - 1) 12 = 31 := by
      unfold days_in_year_month; norm_num
    exact ⟨by norm_num, by norm_num, by norm_num, by omega⟩

theorem rata_prev_day {d : Date} (h : d.Valid) : rata (prev_day d) = rata d - 1 := by
  obtain ⟨h1, h2, h3, h4⟩ := h
  unfold prev_day
  split_ifs with c1 c2 <;> unfold rata <;> dsimp only
  · omega
  · have hs := days_before_month_succ (y := d.year) (m := d.month - 1)
      (by omega) (by omega)
    have e1 : d.month - 1 + 1 = d.month := by ring
    rw [e1] at hs
    omega
  · have hm : d.month = 1 := by omega
    have hd : d.day = 1 := by omega
    have hl := days_before_month_last (d.year - 1)
    have hy := year_start_succ (d.year - 1)
    have e1 : d.year - 1 + 1 = d.year := by ring
    rw [e1] at hy
    rw [hm, hd]
    have h0 : days_before_month d.year 1 = 0 := by
      unfold days_before_month; norm_num
    have h12 : days_before_month (d.year - 1) 12 + 31 = days_in_year (d.year - 1) := hl
    omega

/-- Advancing a date by `n` days: the civil content of the Rust idiom
`successors(Some(date), next_day).nth(n)` used throughout the expander. -/
def add_days : Nat → Date → Date
  | 0, d => d
  | n + 1, d => add_days n (next_day d)

/-- Stepping a date back by `n` days. -/
def sub_days : Nat → Date → Date
  | 0, d => d
  | n + 1, d => sub_days n (prev_day d)

/-- Shifting a date by a signed number of days. -/
def add_days_int (k : Int) (d : Date) : Date :=
  if 0 ≤ k then add_days k.toNat d else sub_days (-k).toNat d

theorem add_days_valid {n : Nat} {d : Date} (h : d.Valid) : (add_days n d).Valid := by
  induction n generalizing d with
  | zero => exact h
  | succ n ih => exact ih (next_day_valid h)

theorem rata_add_days {n : Nat} {d : Date} (h : d.Valid) :
    rata (add_days n d) = rata d + n := by
  induction n generalizing d with
  | zero => simp [add_days]
  | succ n ih =>
    have := ih (next_day_valid h)
    rw [add_days, this, rata_next_day h]
    push_cast
    ring

theorem sub_days_valid {n : Nat} {d : Date} (h : d.Valid) : (sub_days n d).Valid := by
  induction n generalizing d with
  | zero => exact h
  | succ n ih => exact ih (prev_day_valid h)

theorem rata_sub_days {n : Nat} {d : Date} (h : d.Valid) :
    rata (sub_days n d) = rata d - n := by
  induction n generalizing d with
  | zero => simp [sub_days]
  | succ n ih =>
    have := ih (prev_day_valid h)
    rw [sub_days, this, rata_prev_day h]
    push_cast
    ring

theorem add_days_int_valid {k : Int} {d : Date} (h : d.Valid) : (add_days_int k d).Valid := by
  unfold add_days_int
  split_ifs <;> [exact add_days_valid h; exact sub_days_valid h]

theorem rata_add_days_int {k : Int} {d : Date} (h : d.Valid) :
    rata (add_days_int k d) = rata d + k := by
  unfold add_days_int
  split_ifs with hk
  · rw [rata_add_days h]
    omega
  · rw [rata_sub_days h]
    omega

theorem add_days_add (a b : Nat) (d : Date) :
    add_days (a + b) d = add_days b (add_days a d) := by
  induction a generalizing d with
  | zero => simp [add_days]
  | succ a ih =>
    have e1 : a + 1 + b = (a + b) + 1 := by omega
    rw [e1, add_days, add_days, ih]

/-- The Rust idiom `successors(Some(date), |x| x.next_day()).nth(n)` used
by the daily, weekly and monthly branches: `time::Date::next_day` returns
`None` exactly at the crate's maximal date 9999-12-31, so for a date within
the representable range the walk returns the `n`-th successor exactly when
that successor has not passed beyond year 9999, and `None` otherwise. -/
def step_days (n : Nat) (d : Date) : Option Date :=
  if (add_days n d).year ≤ 9999 then some (add_days n d) else none

theorem step_days_some {n : Nat} {d c : Date} (h : step_days n d = some c) :
    c = add_days n d ∧ (add_days n d).year ≤ 9999 := by
  unfold step_days at h
  split_ifs at h with hc
  injection h with he
  exact ⟨he.symm, hc⟩

theorem step_days_of_year_le {n : Nat} {d : Date}
    (h : (add_days n d).year ≤ 9999) : step_days n d = some (add_days n d) := by
  unfold step_days
  rw [if_pos h]

/-- Bounds of the day-of-year part of `rata` within its year. -/
theorem rata_year_bounds {d : Date} (h : d.Valid) :
    year_start d.year ≤ rata d ∧ rata d < year_start d.year + days_in_year d.year := by
  obtain ⟨h1, h2, h3, h4⟩ := h
  have hub : days_before_month d.year d.month + days_in_year_month d.year d.month ≤
      days_in_year d.year := by
    have hlast := days_before_month_last d.year
    have step : ∀ m : Int, 1 ≤ m → m ≤ 12 →
        days_before_month d.year m + days_in_year_month d.year m ≤
          days_before_month d.year 12 + 31 := by
      intro m hm1 hm2
      rcases eq_or_lt_of_le hm2 with he | hlt
      · subst he
        have := days_in_year_month_bounds (y := d.year) (m := 12) (by norm_num) (by norm_num)
        omega
      · -- chain days_before_month upward from m+1 to 12
        have mono : ∀ n : Int, m + 1 ≤ n → n ≤ 12 →
            days_before_month d.year m + days_in_year_month d.year m ≤
              days_before_month d.year n := by
        -- induction on n starting at m+1
          intro n hn1 hn2
          refine Int.le_induction (m := m + 1)
            (P := fun n => n ≤ 12 → days_before_month d.year m +
              days_in_year_month d.year m ≤ days_before_month d.year n) ?_ ?_ n hn1 hn2
          · intro _
            rw [days_before_month_succ hm1 (by omega)]
          · intro n hn ih hn12
            have hb := days_in_year_month_bounds (y := d.year) (m := n) (by omega) (by omega)
            rw [days_before_month_succ (by omega) (by omega)]
            have := ih (by omega)
            omega
        have h12 := mono 12 (by omega) (by omega)
        have := days_in_year_month_bounds (y := d.year) (m := 12) (by norm_num) (by norm_num)
        have := days_in_year_month_bounds (y := d.year) (m := d.month) (by omega) (by omega)
        omega
    have hs := step d.month h1 h2
    omega
  have hnn : 0 ≤ days_before_month d.year d.month := by
    have step : ∀ m : Int, 1 ≤ m → m ≤ 12 → 0 ≤ days_before_month d.year m := by
      intro m hm1 hm2
      refine Int.le_induction (m := 1)
        (P := fun m => m ≤ 12 → 0 ≤ days_before_month d.year m) ?_ ?_ m hm1 hm2
      · intro _
        unfold days_before_month
        norm_num
      · intro n hn ih hn12
        have hb := days_in_year_month_bounds (y := d.year) (m := n) (by omega) (by omega)
        rw [days_before_month_succ (by omega) (by omega)]
        have := ih (by omega)
        omega
    exact step d.month h1 h2
  unfold rata
  omega

theorem year_start_mono {y y' : Int} (h : y < y') :
    year_start y + days_in_year y ≤ year_start y' := by
  have base : year_start y + days_in_year y ≤ year_start (y + 1) := by
    have := year_start_succ y
    omega
  have step : ∀ n : Int, y + 1 ≤ n →
      year_start y + days_in_year y ≤ year_start n →
      year_start y + days_in_year y ≤ year_start (n + 1) := by
    intro n _ ih
    have hd : 0 ≤ days_in_year n := by
      unfold days_in_year
      split_ifs <;> omega
    have := year_start_succ n
    omega
  exact Int.le_induction (m := y + 1)
    (P := fun n => year_start y + days_in_year y ≤ year_start n) base step y' (by omega)

/-- `rata` is strictly monotone on valid dates with respect to the
lexicographic date order: the linear day count refines the civil order. -/
theorem rata_lt_of_lt {a b : Date} (ha : a.Valid) (hb : b.Valid) (h : Date.lt a b) :
    rata a < rata b := by
  obtain ⟨a1, a2, a3, a4⟩ := ha
  obtain ⟨b1, b2, b3, b4⟩ := hb
  rcases h with hy | ⟨hy, hm | ⟨hm, hd⟩⟩
  · have r1 := rata_year_bounds (d := a) ⟨a1, a2, a3, a4⟩
    have r2 := rata_year_bounds (d := b) ⟨b1, b2, b3, b4⟩
    have := year_start_mono hy
    omega
  · -- same year, a.month < b.month
    have mono : ∀ n : Int, a.month + 1 ≤ n → n ≤ 12 →
        days_before_month a.year a.month + days_in_year_month a.year a.month ≤
          days_before_month a.year n := by
      intro n hn1 hn2
      refine Int.le_induction (m := a.month + 1)
        (P := fun n => n ≤ 12 → days_before_month a.year a.month +
          days_in_year_month a.year a.month ≤ days_before_month a.year n) ?_ ?_ n hn1 hn2
      · intro _
        rw [days_before_month_succ a1 (by omega)]
      · intro n hn ih hn12
        have hb := days_in_year_month_bounds (y := a.year) (m := n) (by omega) (by omega)
        rw [days_before_month_succ (by omega) (by omega)]
        have := ih (by omega)
        omega
    have hmb := mono b.month (by omega) b2
    unfold rata
    rw [hy] at a4 hmb ⊢
    omega
  · unfold rata
    rw [hy, hm]
    omega

theorem rata_le_of_le {a b : Date} (ha : a.Valid) (hb : b.Valid) (h : Date.le a b) :
    rata a ≤ rata b := by
  rcases h with h | h
  · exact le_of_lt (rata_lt_of_lt ha hb h)
  · rw [h]

theorem date_trichotomy (a b : Date) : Date.lt a b ∨ a = b ∨ Date.lt b a := by
  obtain ⟨ya, ma, da⟩ := a
  obtain ⟨yb, mb, db⟩ := b
  unfold Date.lt
  dsimp only
  by_cases hy : ya = yb
  · by_cases hm : ma = mb
    · by_cases hd : da = db
      · subst hy; subst hm; subst hd
        right; left; rfl
      · rcases lt_or_gt_of_ne hd with h | h
        · left; right; exact ⟨hy, Or.inr ⟨hm, h⟩⟩
        · right; right; right; exact ⟨hy.symm, Or.inr ⟨hm.symm, h⟩⟩
    · rcases lt_or_gt_of_ne hm with h | h
      · left; right; exact ⟨hy, Or.inl h⟩
      · right; right; right; exact ⟨hy.symm, Or.inl h⟩
  · rcases lt_or_gt_of_ne hy with h | h
    · left; left; exact h
    · right; right; left; exact h

theorem lt_of_rata_lt {a b : Date} (ha : a.Valid) (hb : b.Valid) (h : rata a < rata b) :
    Date.lt a b := by
  rcases date_trichotomy a b with hl | he | hg
  · exact hl
  · rw [he] at h; omega
  · have := rata_lt_of_lt hb ha hg
    omega

theorem le_of_rata_le {a b : Date} (ha : a.Valid) (hb : b.Valid) (h : rata a ≤ rata b) :
    Date.le a b := by
  rcases date_trichotomy a b with hl | he | hg
  · exact Or.inl hl
  · exact Or.inr he
  · have := rata_lt_of_lt hb ha hg
    omega

theorem rata_inj {a b : Date} (ha : a.Valid) (hb : b.Valid) (h : rata a = rata b) :
    a = b := by
  rcases date_trichotomy a b with hl | he | hg
  · have := rata_lt_of_lt ha hb hl; omega
  · exact he
  · have := rata_lt_of_lt hb ha hg; omega

/-- Every valid date at or after a valid date `a` is reached by repeatedly
applying `next_day`: the successor enumeration used by the code (and by the
repository's `event_covers` quickcheck test) is exhaustive. -/
theorem reachable_iff_le {a b : Date} (ha : a.Valid) (hb : b.Valid) :
    (∃ k : Nat, add_days k a = b) ↔ Date.le a b := by
  constructor
  · rintro ⟨k, rfl⟩
    exact le_of_rata_le ha (add_days_valid ha) (by rw [rata_add_days ha]; omega)
  · intro h
    refine ⟨(rata b - rata a).toNat, ?_⟩
    have hle := rata_le_of_le ha hb h
    refine rata_inj (add_days_valid ha) hb ?_
    rw [rata_add_days ha]
    omega

theorem days_in_year_bounds (y : Int) :
    365 ≤ days_in_year y ∧ days_in_year y ≤ 366 := by
  unfold days_in_year
  split_ifs <;> omega

/-- The year is monotone along the linear day count. -/
theorem year_mono_of_rata_le {d e : Date} (hd : d.Valid) (he : e.Valid)
    (h : rata d ≤ rata e) : d.year ≤ e.year := by
  by_contra hy
  push_neg at hy
  have hm := year_start_mono hy
  have rb_d := rata_year_bounds hd
  have rb_e := rata_year_bounds he
  omega

/-- A date at most 364 days after `d` is in `d`'s year or the next one. -/
theorem year_le_of_rata_le {d e : Date} (hd : d.Valid) (he : e.Valid)
    (h : rata e ≤ rata d + 364) : e.year ≤ d.year + 1 := by
  by_contra hy
  push_neg at hy
  have hm := @year_start_mono (d.year + 1) e.year (by omega)
  have hs := year_start_succ d.year
  have rb_d := rata_year_bounds hd
  have rb_e := rata_year_bounds he
  have hb := days_in_year_bounds (d.year + 1)
  omega

/-- A date at most 364 days before `d` is in `d`'s year or the previous one. -/
theorem year_ge_of_rata_ge {d e : Date} (hd : d.Valid) (he : e.Valid)
    (h : rata d - 364 ≤ rata e) : d.year - 1 ≤ e.year := by
  by_contra hy
  push_neg at hy
  have hm := @year_start_mono (e.year + 1) d.year (by omega)
  have hs := year_start_succ e.year
  have rb_d := rata_year_bounds hd
  have rb_e := rata_year_bounds he
  have hb := days_in_year_bounds (e.year + 1)
  omega

/-- A linear index of (year, month): consecutive months differ by one. -/
def month_idx (d : Date) : Int :=
  12 * d.year + d.month

/-- The first day of the month following the month of `d`. -/
def next_month (d : Date) : Date :=
  if d.month < 12 then ⟨d.year, d.month + 1, 1⟩ else ⟨d.year + 1, 1, 1⟩

theorem next_month_valid {d : Date} (h : d.Valid) : (next_month d).Valid := by
  obtain ⟨h1, h2, h3, h4⟩ := h
  unfold next_month
  split_ifs with c <;> unfold Date.Valid <;> dsimp only
  · have b1 := days_in_year_month_bounds (y := d.year) (m := d.month + 1)
      (by omega) (by omega)
    exact ⟨by omega, by omega, by omega, by omega⟩
  · have b2 := days_in_year_month_bounds (y := d.year + 1) (m := 1)
      (by norm_num) (by norm_num)
    exact ⟨by omega, by omega, by omega, by omega⟩

theorem month_idx_next_month {d : Date} (h : d.Valid) :
    month_idx (next_month d) = month_idx d + 1 := by
  obtain ⟨h1, h2, _, _⟩ := h
  unfold next_month month_idx
  split_ifs with c <;> dsimp only <;> omega

theorem valid_mk {y m dd : Int} (h1 : 1 ≤ m) (h2 : m ≤ 12) (h3 : 1 ≤ dd)
    (h4 : dd ≤ days_in_year_month y m) : (Date.mk y m dd).Valid :=
  ⟨h1, h2, h3, h4⟩

theorem rata_mk (y m dd : Int) :
    rata ⟨y, m, dd⟩ = year_start y + days_before_month y m + (dd - 1) :=
  rfl

theorem rata_same_month {a b : Date} (hy : a.year = b.year) (hm : a.month = b.month) :
    rata a = rata b + (a.day - b.day) := by
  unfold rata
  rw [hy, hm]
  ring

theorem next_month_day {d : Date} : (next_month d).day = 1 := by
  unfold next_month
  split_ifs <;> rfl

/-- The first day of the following month, in linear-day terms: one past the
last day of the current month. -/
theorem rata_next_month {d : Date} (h : d.Valid) :
    rata (next_month d) = rata d + (days_in_year_month d.year d.month - d.day) + 1 := by
  obtain ⟨h1, h2, h3, h4⟩ := h
  unfold next_month
  split_ifs with c
  · rw [rata_mk, days_before_month_succ h1 (by omega)]
    unfold rata
    omega
  · have hm : d.month = 12 := by omega
    rw [rata_mk, year_start_succ]
    have hd1 : days_before_month (d.year + 1) 1 = 0 := by
      unfold days_before_month
      norm_num
    have hlast := days_before_month_last d.year
    have h12 : days_in_year_month d.year 12 = 31 := by
      unfold days_in_year_month
      norm_num
    unfold rata
    rw [hm] at h4 ⊢
    omega

/-- One 32-day step from a valid date, fully characterised.  Writing `L`
for the length of the date's month and `L1` for the length of the following
month, the step lands in the following month at day `d.day + 32 - L` when
`d.day + 32 ≤ L + L1`, and otherwise overshoots into the second following
month, at day `d.day + 32 - L - L1`. -/
theorem add_days_32_spec {d : Date} (h : d.Valid) :
    (d.day + 32 ≤ days_in_year_month d.year d.month +
        days_in_year_month (next_month d).year (next_month d).month ∧
      add_days 32 d = ⟨(next_month d).year, (next_month d).month,
        d.day + 32 - days_in_year_month d.year d.month⟩) ∨
    (d.day + 32 > days_in_year_month d.year d.month +
        days_in_year_month (next_month d).year (next_month d).month ∧
      add_days 32 d = ⟨(next_month (next_month d)).year, (next_month (next_month d)).month,
        d.day + 32 - days_in_year_month d.year d.month -
          days_in_year_month (next_month d).year (next_month d).month⟩) := by
  obtain ⟨h1, h2, h3, h4⟩ := h
  have hL := days_in_year_month_bounds (y := d.year) h1 h2
  have hNv := next_month_valid (d := d) ⟨h1, h2, h3, h4⟩
  have hL1 := days_in_year_month_bounds
    (y := (next_month d).year) (m := (next_month d).month) hNv.1 hNv.2.1
  have hrN := rata_next_month (d := d) ⟨h1, h2, h3, h4⟩
  have hNd : (next_month d).day = 1 := next_month_day
  by_cases hc : d.day + 32 ≤ days_in_year_month d.year d.month +
      days_in_year_month (next_month d).year (next_month d).month
  · left
    refine ⟨hc, ?_⟩
    refine rata_inj (add_days_valid ⟨h1, h2, h3, h4⟩) ?_ ?_
    · exact valid_mk hNv.1 hNv.2.1 (by omega) (by omega)
    · rw [rata_add_days ⟨h1, h2, h3, h4⟩]
      have hsame := rata_same_month
        (a := ⟨(next_month d).year, (next_month d).month,
          d.day + 32 - days_in_year_month d.year d.month⟩)
        (b := next_month d) rfl rfl
      dsimp only at hsame
      push_cast
      omega
  · right
    refine ⟨by omega, ?_⟩
    have hNNv := next_month_valid (d := next_month d) hNv
    have hL2 := days_in_year_month_bounds
      (y := (next_month (next_month d)).year)
      (m := (next_month (next_month d)).month) hNNv.1 hNNv.2.1
    have hrNN := rata_next_month (d := next_month d) hNv
    have hNNd : (next_month (next_month d)).day = 1 := next_month_day
    refine rata_inj (add_days_valid ⟨h1, h2, h3, h4⟩) ?_ ?_
    · exact valid_mk hNNv.1 hNNv.2.1 (by omega) (by omega)
    · rw [rata_add_days ⟨h1, h2, h3, h4⟩]
      have hsame := rata_same_month
        (a := ⟨(next_month (next_month d)).year, (next_month (next_month d)).month,
          d.day + 32 - days_in_year_month d.year d.month -
            days_in_year_month (next_month d).year (next_month d).month⟩)
        (b := next_month (next_month d)) rfl rfl
      dsimp only at hsame
      push_cast
      omega

/-- The 32-day step always leaves the current month behind, landing in the
first or second following month. -/
theorem month_idx_add_days_32 {d : Date} (h : d.Valid) :
    month_idx (add_days 32 d) = month_idx d + 1 ∨
      month_idx (add_days 32 d) = month_idx d + 2 := by
  rcases add_days_32_spec h with ⟨_, he⟩ | ⟨_, he⟩
  · left
    rw [he]
    have e1 := month_idx_next_month h
    unfold month_idx at *
    dsimp only
    omega
  · right
    rw [he]
    have e1 := month_idx_next_month h
    have e2 := month_idx_next_month (next_month_valid h)
    unfold month_idx at *
    dsimp only
    omega

/-- Year and month of the 32-day landing point, as a single statement:
it is the next month or the one after. -/
theorem add_days_32_month_cases {d : Date} (h : d.Valid) :
    ((add_days 32 d).year = (next_month d).year ∧
      (add_days 32 d).month = (next_month d).month) ∨
    ((add_days 32 d).year = (next_month (next_month d)).year ∧
      (add_days 32 d).month = (next_month (next_month d)).month) := by
  rcases add_days_32_spec h with ⟨_, he⟩ | ⟨_, he⟩ <;> rw [he]
  · exact Or.inl ⟨rfl, rfl⟩
  · exact Or.inr ⟨rfl, rfl⟩

/-- Days of the week (`time::Weekday`). -/
inductive Weekday
  | monday
  | tuesday
  | wednesday
  | thursday
  | friday
  | saturday
  | sunday
deriving DecidableEq, Repr

/-- Number of days from Monday (`time::Weekday::number_days_from_monday`). -/
def Weekday.num : Weekday → Int
  | .monday => 0
  | .tuesday => 1
  | .wednesday => 2
  | .thursday => 3
  | .friday => 4
  | .saturday => 5
  | .sunday => 6

/-- Weekday of a date as days-from-Monday, via the linear day count.
The anchor constant 6 makes 0001-01-01 (rata 365) a Monday and 1970-01-01
a Thursday, agreeing with the crate. -/
def weekday_num (d : Date) : Int :=
  (rata d + 6) % 7

/-- The civil step of `time::Date::next_occurrence`: the next date strictly
after `d` whose weekday is `w` (between 1 and 7 days ahead). -/
def next_occurrence (d : Date) (w : Weekday) : Date :=
  add_days ((w.num - weekday_num d - 1) % 7 + 1).toNat d

/-- The civil step of `time::Date::prev_occurrence`: the closest date
strictly before `d` whose weekday is `w`. -/
def prev_occurrence (d : Date) (w : Weekday) : Date :=
  sub_days ((weekday_num d - w.num - 1) % 7 + 1).toNat d

/-- `time::Date::checked_next_occurrence`: `None` when the result would
pass beyond the maximal representable date (the unchecked variant the
weekly branch calls panics then).  The step is forward, so the result is
representable exactly when its year is at most 9999. -/
def checked_next_occurrence (d : Date) (w : Weekday) : Option Date :=
  if (next_occurrence d w).year ≤ 9999 then some (next_occurrence d w) else none

/-- `time::Date::checked_nth_next_occurrence`: `None` when `n == 0` or
when the result overflows the representable range (the unchecked variant
used by the repository panics in both cases).  The walk is forward from a
representable date, so overflow anywhere along it is overflow of the final
result. -/
def checked_nth_next_occurrence (d : Date) (w : Weekday) (n : Nat) : Option Date :=
  if n = 0 then none
  else if (add_days (7 * (n - 1)) (next_occurrence d w)).year ≤ 9999 then
    some (add_days (7 * (n - 1)) (next_occurrence d w))
  else none

/-- `time::Date::checked_nth_prev_occurrence`: `None` when `n == 0` or when
the result underflows the representable range (years below -9999). -/
def checked_nth_prev_occurrence (d : Date) (w : Weekday) (n : Nat) : Option Date :=
  if n = 0 then none
  else if -9999 ≤ (sub_days (7 * (n - 1)) (prev_occurrence d w)).year then
    some (sub_days (7 * (n - 1)) (prev_occurrence d w))
  else none

/-- `time::Date::replace_day`: fails unless the new day is in range for
the date's month. -/
def Date.replace_day (d : Date) (dd : Int) : Option Date :=
  if 1 ≤ dd ∧ dd ≤ days_in_year_month d.year d.month then some ⟨d.year, d.month, dd⟩
  else none

theorem next_occurrence_step {d : Date} (h : d.Valid) (w : Weekday) :
    (next_occurrence d w).Valid ∧
      rata d + 1 ≤ rata (next_occurrence d w) ∧
      rata (next_occurrence d w) ≤ rata d + 7 := by
  unfold next_occurrence
  have hb : 0 ≤ (w.num - weekday_num d - 1) % 7 ∧ (w.num - weekday_num d - 1) % 7 < 7 :=
    ⟨Int.emod_nonneg _ (by norm_num), Int.emod_lt_of_pos _ (by norm_num)⟩
  refine ⟨add_days_valid h, ?_, ?_⟩ <;> rw [rata_add_days h] <;> omega

theorem checked_next_occurrence_spec {d : Date} {w : Weekday} {c : Date}
    (h : checked_next_occurrence d w = some c) :
    c = next_occurrence d w ∧ (next_occurrence d w).year ≤ 9999 := by
  unfold checked_next_occurrence at h
  split_ifs at h with hc
  injection h with he
  exact ⟨he.symm, hc⟩

theorem prev_occurrence_step {d : Date} (h : d.Valid) (w : Weekday) :
    (prev_occurrence d w).Valid ∧
      rata d - 7 ≤ rata (prev_occurrence d w) ∧
      rata (prev_occurrence d w) ≤ rata d - 1 := by
  unfold prev_occurrence
  have hb : 0 ≤ (weekday_num d - w.num - 1) % 7 ∧ (weekday_num d - w.num - 1) % 7 < 7 :=
    ⟨Int.emod_nonneg _ (by norm_num), Int.emod_lt_of_pos _ (by norm_num)⟩
  refine ⟨sub_days_valid h, ?_, ?_⟩ <;> rw [rata_sub_days h] <;> omega

theorem nth_next_occurrence_bound {d : Date} (h : d.Valid) (w : Weekday) {n : Nat}
    {r : Date} (hr : checked_nth_next_occurrence d w n = some r) :
    r.Valid ∧ rata d + 1 ≤ rata r ∧ rata r ≤ rata d + 7 * n ∧ r.year ≤ 9999 := by
  unfold checked_nth_next_occurrence at hr
  split_ifs at hr with hn hy
  injection hr with he
  subst he
  obtain ⟨hv, hlow, hhigh⟩ := next_occurrence_step h w
  refine ⟨add_days_valid hv, ?_, ?_, hy⟩ <;> rw [rata_add_days hv] <;> omega

theorem nth_prev_occurrence_bound {d : Date} (h : d.Valid) (w : Weekday) {n : Nat}
    {r : Date} (hr : checked_nth_prev_occurrence d w n = some r) :
    r.Valid ∧ rata d - 7 * n ≤ rata r ∧ rata r ≤ rata d - 1 ∧ -9999 ≤ r.year := by
  unfold checked_nth_prev_occurrence at hr
  split_ifs at hr with hn hy
  injection hr with he
  subst he
  obtain ⟨hv, hlow, hhigh⟩ := prev_occurrence_step h w
  refine ⟨sub_days_valid hv, ?_, ?_, hy⟩ <;> rw [rata_sub_days hv] <;> omega

/-- For weekday ordinals of magnitude up to 9, the forward walk stays
within the representable range whenever the starting date's year is at most
9998, so the checked operation succeeds. -/
theorem checked_nth_next_occurrence_some {d : Date} (h : d.Valid) (w : Weekday)
    {n : Nat} (hn : n ≠ 0) (hn9 : n ≤ 9) (hy : d.year ≤ 9998) :
    ∃ r, checked_nth_next_occurrence d w n = some r := by
  unfold checked_nth_next_occurrence
  rw [if_neg hn]
  obtain ⟨hv0, hlow, hhigh⟩ := next_occurrence_step h w
  have hv := add_days_valid (n := 7 * (n - 1)) hv0
  have hr : rata (add_days (7 * (n - 1)) (next_occurrence d w)) ≤ rata d + 364 := by
    rw [rata_add_days hv0]
    have hk : (7 * (n - 1) : Nat) ≤ 56 := by omega
    omega
  have hy1 := year_le_of_rata_le h hv hr
  rw [if_pos (by omega)]
  exact ⟨_, rfl⟩

/-- Symmetrically, the backward walk stays within the range whenever the
starting date's year is at least -9998. -/
theorem checked_nth_prev_occurrence_some {d : Date} (h : d.Valid) (w : Weekday)
    {n : Nat} (hn : n ≠ 0) (hn9 : n ≤ 9) (hy : -9998 ≤ d.year) :
    ∃ r, checked_nth_prev_occurrence d w n = some r := by
  unfold checked_nth_prev_occurrence
  rw [if_neg hn]
  obtain ⟨hv0, hlow, hhigh⟩ := prev_occurrence_step h w
  have hv := sub_days_valid (n := 7 * (n - 1)) hv0
  have hr : rata d - 364 ≤ rata (sub_days (7 * (n - 1)) (prev_occurrence d w)) := by
    rw [rata_sub_days hv0]
    have hk : (7 * (n - 1) : Nat) ≤ 56 := by omega
    omega
  have hy1 := year_ge_of_rata_ge h hv hr
  rw [if_pos (by omega)]
  exact ⟨_, rfl⟩

/-- A date+time with a fixed UTC offset (`time::OffsetDateTime`), stored as
its civil date, the second within the local day, and the offset in seconds.
The absolute instant it denotes is `instant`; the crate compares
offset-datetimes by instant. -/
structure OffsetDateTime where
  date : Date
  sec : Int
  offset : Int
deriving DecidableEq, Repr

/-- Seconds since the linear anchor: the quantity `time` compares and
subtracts (`unix_timestamp`-style, at second precision). -/
def OffsetDateTime.instant (t : OffsetDateTime) : Int :=
  86400 * rata t.date + t.sec - t.offset

/-- Well-formedness: valid civil date and a second-of-day in range. -/
def OffsetDateTime.Valid (t : OffsetDateTime) : Prop :=
  t.date.Valid ∧ 0 ≤ t.sec ∧ t.sec < 86400

/-- `<` on `time::OffsetDateTime` (instant order). -/
def OffsetDateTime.lt (a b : OffsetDateTime) : Prop :=
  a.instant < b.instant

instance (a b : OffsetDateTime) : Decidable (OffsetDateTime.lt a b) := by
  unfold OffsetDateTime.lt; infer_instance

/-- `time::OffsetDateTime::replace_date`: swap the civil date, keeping
time-of-day and offset. -/
def OffsetDateTime.replace_date (t : OffsetDateTime) (d : Date) : OffsetDateTime :=
  ⟨d, t.sec, t.offset⟩

/-- Adding a (possibly negative) whole number of seconds, renormalising the
civil fields; offset unchanged.  Models `OffsetDateTime + Duration`. -/
def OffsetDateTime.add_seconds (t : OffsetDateTime) (k : Int) : OffsetDateTime :=
  ⟨add_days_int ((t.sec + k) / 86400) t.date, (t.sec + k) % 86400, t.offset⟩

/-- `time::OffsetDateTime::to_offset`: same instant, new offset, civil
fields renormalised. -/
def OffsetDateTime.to_offset (t : OffsetDateTime) (o : Int) : OffsetDateTime :=
  ⟨add_days_int ((t.sec + (o - t.offset)) / 86400) t.date,
    (t.sec + (o - t.offset)) % 86400, o⟩

/-- `time::OffsetDateTime::replace_year` (used by the yearly branch):
keeps month, day, time and offset; fails when the new year is outside the
crate's representable range -9999..=9999 or when the day does not exist in
the new year (Feb 29 to a non-leap year). -/
def OffsetDateTime.replace_year (t : OffsetDateTime) (y : Int) : Option OffsetDateTime :=
  if -9999 ≤ y ∧ y ≤ 9999 ∧ 1 ≤ t.date.day ∧ t.date.day ≤ days_in_year_month y t.date.month
  then some ⟨⟨y, t.date.month, t.date.day⟩, t.sec, t.offset⟩
  else none

theorem instant_replace_date (t : OffsetDateTime) (d : Date) :
    (t.replace_date d).instant = t.instant + 86400 * (rata d - rata t.date) := by
  unfold OffsetDateTime.replace_date OffsetDateTime.instant
  dsimp only
  ring

theorem instant_add_seconds {t : OffsetDateTime} (h : t.date.Valid) (k : Int) :
    (t.add_seconds k).instant = t.instant + k := by
  unfold OffsetDateTime.add_seconds OffsetDateTime.instant
  dsimp only
  rw [rata_add_days_int h]
  have := Int.ediv_add_emod (t.sec + k) 86400
  ring_nf
  omega

theorem add_seconds_valid {t : OffsetDateTime} (h : t.date.Valid) (k : Int) :
    (t.add_seconds k).Valid := by
  unfold OffsetDateTime.add_seconds OffsetDateTime.Valid
  dsimp only
  refine ⟨add_days_int_valid h, Int.emod_nonneg _ (by norm_num),
    Int.emod_lt_of_pos _ (by norm_num)⟩

theorem instant_to_offset {t : OffsetDateTime} (h : t.date.Valid) (o : Int) :
    (t.to_offset o).instant = t.instant := by
  unfold OffsetDateTime.to_offset OffsetDateTime.instant
  dsimp only
  rw [rata_add_days_int h]
  have := Int.ediv_add_emod (t.sec + (o - t.offset)) 86400
  ring_nf
  omega

theorem to_offset_valid {t : OffsetDateTime} (h : t.date.Valid) (o : Int) :
    (t.to_offset o).Valid := by
  unfold OffsetDateTime.to_offset OffsetDateTime.Valid
  dsimp only
  refine ⟨add_days_int_valid h, Int.emod_nonneg _ (by norm_num),
    Int.emod_lt_of_pos _ (by norm_num)⟩

/-- `Event` (src/app/data/cal.rs, lines 14-19).  The Rust field `end` is a
Lean keyword and is modelled as `end_`. -/
structure Event where
  summary : String
  start : OffsetDateTime
  end_ : OffsetDateTime
deriving DecidableEq, Repr

/-- `Event::covers` (src/app/data/cal.rs, lines 22-24):
`self.start.date() <= date && self.end.date() >= date`. -/
def Event.covers (e : Event) (date : Date) : Prop :=
  Date.le e.start.date date ∧ Date.le date e.end_.date

instance (e : Event) (d : Date) : Decidable (e.covers d) := by
  unfold Event.covers; infer_instance

/-- `Freq` (src/app/data/cal.rs, lines 380-387). -/
inductive Freq
  | daily
  | weekly
  | monthly
  | yearly
deriving DecidableEq, Repr

/-- `Freq::parse` (lines 389-399). -/
def Freq.parse (val : String) : Option Freq :=
  if val = "DAILY" then some .daily
  else if val = "WEEKLY" then some .weekly
  else if val = "MONTHLY" then some .monthly
  else if val = "YEARLY" then some .yearly
  else none

/-- `RepeatRule` (lines 165-173).  The Rust field `until` is kept as
`until_`.  `interval`/`count` are `u32` values and `by_month_day` a `u8`
value; the parser (below) only ever stores in-range numbers. -/
structure RepeatRule where
  freq : Freq
  until_ : Option OffsetDateTime
  by_day : Option (Weekday × Int)
  by_month_day : Option Int
  interval : Option Nat
  count : Option Nat
deriving DecidableEq, Repr

/-- `RepeatRule::to_offset` (lines 200-217): re-express UNTIL in the
target offset; all other fields unchanged. -/
def RepeatRule.to_offset (r : RepeatRule) (offset : Int) : RepeatRule :=
  { r with until_ := r.until_.map (fun x => x.to_offset offset) }

/-- `RepeatRule::filter_until` (lines 219-225). -/
def RepeatRule.filter_until (r : RepeatRule) (start : OffsetDateTime) :
    Option OffsetDateTime :=
  match r.until_ with
  | some u => if OffsetDateTime.lt start u then some start else none
  | none => some start

/-- The common tail of every branch of `RepeatRule::next`: apply the UNTIL
filter to the candidate start, then emit the event with
`end = start + (previous.end - previous.start)` and the same summary. -/
def RepeatRule.finish (r : RepeatRule) (ev : Event) (start : OffsetDateTime) :
    Option Event :=
  match r.filter_until start with
  | none => none
  | some s => some ⟨ev.summary, s, s.add_seconds (ev.end_.instant - ev.start.instant)⟩

/-- The day-of-month re-derivation of the monthly branch (lines 277-297),
given the 32-day landing date `c`: a clamped BYMONTHDAY, an Nth-weekday
selection, or the previous occurrence's day of month as fallback.  Each
`.unwrap()`/panicking call of the source is an `.error`. -/
def monthly_day (r : RepeatRule) (ev : Event) (c : Date) : Except String Date :=
  match r.by_month_day with
  | some bmd =>
    match c.replace_day (min bmd (days_in_year_month c.year c.month)) with
    | some d => .ok d
    | none => .error "called Result unwrap on an Err value"
  | none =>
    match r.by_day with
    | some (w, i) =>
      if 0 < i then
        match c.replace_day 1 with
        | some c1 =>
          match checked_nth_next_occurrence c1 w i.toNat with
          | some d => .ok d
          | none => .error "nth next occurrence overflow"
        | none => .error "called Result unwrap on an Err value"
      else
        match c.replace_day (days_in_year_month c.year c.month) with
        | some cl =>
          match checked_nth_prev_occurrence cl w (-i).toNat with
          | some d => .ok d
          | none => .error "nth prev occurrence overflow"
        | none => .error "called Result unwrap on an Err value"
    | none =>
      match c.replace_day ev.start.date.day with
      | some d => .ok d
      | none => .error "called Result unwrap on an Err value"

/-- Rust `u32 as i32`: reinterpretation of an unsigned 32-bit value as a
two's-complement signed one.  Values of 2^31 and above wrap to negative. -/
def u32_as_i32 (n : Nat) : Int :=
  if n < 2147483648 then (n : Int) else (n : Int) - 4294967296

/-- The frequency dispatch of `RepeatRule::next` (lines 242-322), after the
COUNT bookkeeping.  `.error` models a panic; an exhausted `next_day` walk
(`step_days` returning `none`) is the source's `?` and ends the stream. -/
def RepeatRule.next_body (r : RepeatRule) (ev : Event) : Except String (Option Event) :=
  match r.freq with
  | .daily =>
    -- lines 243-256: advance `interval` (default 1) calendar days;
    -- `interval as usize` is value-preserving
    match step_days (r.interval.getD 1) ev.start.date with
    | none => .ok none
    | some st => .ok (r.finish ev (ev.start.replace_date st))
  | .weekly =>
    -- lines 257-272: next occurrence of the BYDAY weekday (panics on
    -- overflow), else a 7-day `next_day` walk
    match r.by_day with
    | some (w, _) =>
      match checked_next_occurrence ev.start.date w with
      | none => .error "overflow calculating the next occurrence of a weekday"
      | some st => .ok (r.finish ev (ev.start.replace_date st))
    | none =>
      match step_days 7 ev.start.date with
      | none => .ok none
      | some st => .ok (r.finish ev (ev.start.replace_date st))
  | .monthly =>
    -- lines 273-307: 32-day step, then re-derive the day of month
    match step_days 32 ev.start.date with
    | none => .ok none
    | some c =>
      match monthly_day r ev c with
      | .ok d => .ok (r.finish ev (ev.start.replace_date d))
      | .error m => .error m
  | .yearly =>
    -- lines 308-321: replace the year of the previous start by
    -- `year + interval as i32` (the u32 cast wraps)
    match ev.start.replace_year (ev.start.date.year + u32_as_i32 (r.interval.getD 1)) with
    | some s => .ok (r.finish ev s)
    | none => .error "should be fine"

/-- `RepeatRule::next` (lines 227-323).  A stopped counter returns no
event; otherwise the counter is decremented and the frequency rule runs.
The returned rule carries the updated counter (the Rust method mutates
`self`). -/
def RepeatRule.next (r : RepeatRule) (ev : Event) :
    Except String (Option (RepeatRule × Event)) :=
  match r.count with
  | some 0 => .ok none
  | some (x + 1) =>
    let r' : RepeatRule := { r with count := some x }
    (r'.next_body ev).map (Option.map (fun e => (r', e)))
  | none => (r.next_body ev).map (Option.map (fun e => (r, e)))

/-- One pull of the iterator built in `make_event` (line 62): the closure
`move |ev| rrule.as_mut().and_then(|r| r.next(ev))`. -/
def expand_step (s : Option RepeatRule × Event) :
    Except String (Option (Option RepeatRule × Event)) :=
  match s.1 with
  | none => .ok none
  | some r => (r.next s.2).map (Option.map (fun p => (some p.1, p.2)))

/-- State of the `successors(first, ...)` stream after `n` pulls beyond the
base event (element 0 is the base event together with the initial rule). -/
def expand_state (r : Option RepeatRule) (ev : Event) :
    Nat → Except String (Option (Option RepeatRule × Event))
  | 0 => .ok (some (r, ev))
  | n + 1 =>
    match expand_state r ev n with
    | .error m => .error m
    | .ok none => .ok none
    | .ok (some s) => expand_step s

/-- The `n`-th event of the expansion stream. -/
def expand_nth (r : Option RepeatRule) (ev : Event) (n : Nat) :
    Except String (Option Event) :=
  (expand_state r ev n).map (Option.map Prod.snd)

/-- C1.  `Event.covers` agrees with genuine calendar betweenness: `covers`
is the conjunction of the two date comparisons the code writes, and, for
valid dates, that is equivalent to `D` being one of the dates enumerated
from `start.date()` day by day while not exceeding `end.date()` (the
enumeration the repository's `event_covers` quickcheck test performs). -/
theorem covers_iff_between (e : Event) (D : Date)
    (hs : e.start.date.Valid) (hD : D.Valid) :
    (e.covers D ↔ (Date.le e.start.date D ∧ Date.le D e.end_.date)) ∧
    (e.covers D ↔ ((∃ k : Nat, add_days k e.start.date = D) ∧ Date.le D e.end_.date)) := by
  constructor
  · exact Iff.rfl
  · unfold Event.covers
    rw [reachable_iff_le hs hD]

/-- C1 witness: a concrete three-day event covering a concrete middle day. -/
theorem covers_iff_between_witness :
    ((Event.mk "w" ⟨⟨2024, 1, 13⟩, 30600, 36000⟩ ⟨⟨2024, 1, 15⟩, 34200, 36000⟩).covers
        ⟨2024, 1, 14⟩ ↔
      (Date.le (⟨2024, 1, 13⟩ : Date) ⟨2024, 1, 14⟩ ∧
        Date.le (⟨2024, 1, 14⟩ : Date) ⟨2024, 1, 15⟩)) ∧
    ((Event.mk "w" ⟨⟨2024, 1, 13⟩, 30600, 36000⟩ ⟨⟨2024, 1, 15⟩, 34200, 36000⟩).covers
        ⟨2024, 1, 14⟩ ↔
      ((∃ k : Nat, add_days k (⟨2024, 1, 13⟩ : Date) = ⟨2024, 1, 14⟩) ∧
        Date.le (⟨2024, 1, 14⟩ : Date) ⟨2024, 1, 15⟩)) :=
  covers_iff_between _ _ (by decide) (by decide)


theorem filter_until_some {r : RepeatRule} {s t : OffsetDateTime}
    (h : r.filter_until s = some t) : t = s := by
  rcases hru : r.until_ with _ | u <;>
    simp only [RepeatRule.filter_until, hru, Option.some.injEq] at h
  · exact h.symm
  · split_ifs at h
    injection h with he
    exact he.symm

theorem finish_some {r : RepeatRule} {ev : Event} {s : OffsetDateTime} {e' : Event}
    (h : r.finish ev s = some e') :
    e' = ⟨ev.summary, s, s.add_seconds (ev.end_.instant - ev.start.instant)⟩ := by
  rcases hfu : r.filter_until s with _ | t <;>
    simp only [RepeatRule.finish, hfu, Option.some.injEq] at h
  · cases h
  · have := filter_until_some hfu
    subst this
    exact h.symm

theorem replace_day_spec {c : Date} {x : Int} {d : Date} (h : c.replace_day x = some d) :
    d = ⟨c.year, c.month, x⟩ ∧ 1 ≤ x ∧ x ≤ days_in_year_month c.year c.month := by
  unfold Date.replace_day at h
  split_ifs at h with hc
  injection h with he
  exact ⟨he.symm, hc.1, hc.2⟩

theorem replace_day_valid {c : Date} {x : Int} {d : Date} (hc : c.Valid)
    (h : c.replace_day x = some d) : d.Valid := by
  obtain ⟨he, h1, h2⟩ := replace_day_spec h
  subst he
  exact valid_mk hc.1 hc.2.1 h1 h2

theorem nth_prev_occurrence_valid {d : Date} (h : d.Valid) {w : Weekday} {n : Nat}
    {r : Date} (hr : checked_nth_prev_occurrence d w n = some r) : r.Valid := by
  unfold checked_nth_prev_occurrence at hr
  split_ifs at hr
  injection hr with he
  subst he
  exact sub_days_valid (sub_days_valid h)

theorem replace_year_spec {t : OffsetDateTime} {y : Int} {s : OffsetDateTime}
    (h : t.replace_year y = some s) :
    s = ⟨⟨y, t.date.month, t.date.day⟩, t.sec, t.offset⟩ ∧
      -9999 ≤ y ∧ y ≤ 9999 ∧
      1 ≤ t.date.day ∧ t.date.day ≤ days_in_year_month y t.date.month := by
  unfold OffsetDateTime.replace_year at h
  split_ifs at h with hc
  injection h with he
  exact ⟨he.symm, hc.1, hc.2.1, hc.2.2.1, hc.2.2.2⟩

/-- Every date produced by the monthly day re-derivation is valid. -/
theorem monthly_day_valid {r : RepeatRule} {ev : Event} {c : Date} {d : Date}
    (hc : c.Valid) (h : monthly_day r ev c = .ok d) : d.Valid := by
  unfold monthly_day at h
  rcases hbmd : r.by_month_day with _ | bmd <;> rw [hbmd] at h <;> dsimp only at h
  · rcases hbd : r.by_day with _ | ⟨w, i⟩ <;> rw [hbd] at h <;> dsimp only at h
    · rcases hrd : c.replace_day ev.start.date.day with _ | d2 <;>
        rw [hrd] at h <;> dsimp only at h
      · cases h
      · injection h with he
        subst he
        exact replace_day_valid hc hrd
    · split_ifs at h with hi
      · rcases hr1 : c.replace_day 1 with _ | c1 <;> rw [hr1] at h <;> dsimp only at h
        · cases h
        · rcases hnn : checked_nth_next_occurrence c1 w i.toNat with _ | d2 <;>
            rw [hnn] at h <;> dsimp only at h
          · cases h
          · injection h with he
            subst he
            exact (nth_next_occurrence_bound (replace_day_valid hc hr1) w hnn).1
      · rcases hrl : c.replace_day (days_in_year_month c.year c.month) with _ | cl <;>
          rw [hrl] at h <;> dsimp only at h
        · cases h
        · rcases hnp : checked_nth_prev_occurrence cl w (-i).toNat with _ | d2 <;>
            rw [hnp] at h <;> dsimp only at h
          · cases h
          · injection h with he
            subst he
            exact nth_prev_occurrence_valid (replace_day_valid hc hrl) hnp
  · rcases hrd : c.replace_day (min bmd (days_in_year_month c.year c.month)) with _ | d2 <;>
      rw [hrd] at h <;> dsimp only at h
    · cases h
    · injection h with he
      subst he
      exact replace_day_valid hc hrd

set_option maxRecDepth 4000 in
/-- Any event emitted by the frequency dispatch has a valid start date,
the same summary, and exactly the duration of the previous event. -/
theorem next_body_emit {r : RepeatRule} {ev : Event} {e' : Event}
    (hv : ev.start.date.Valid)
    (h : r.next_body ev = .ok (some e')) :
    e'.start.date.Valid ∧
    e'.end_.instant - e'.start.instant = ev.end_.instant - ev.start.instant ∧
    e'.summary = ev.summary := by
  have main : ∀ s : OffsetDateTime, s.date.Valid → r.finish ev s = some e' →
      e'.start.date.Valid ∧
      e'.end_.instant - e'.start.instant = ev.end_.instant - ev.start.instant ∧
      e'.summary = ev.summary := by
    intro s hs hf
    have he := finish_some hf
    subst he
    refine ⟨hs, ?_, rfl⟩
    rw [instant_add_seconds hs]
    ring
  unfold RepeatRule.next_body at h
  rcases hfr : r.freq with _ | _ | _ | _ <;> rw [hfr] at h <;> dsimp only at h
  · -- daily
    rcases hsd : step_days (r.interval.getD 1) ev.start.date with _ | st <;>
      rw [hsd] at h <;> dsimp only at h
    · injection h with he
      cases he
    · injection h with he
      obtain ⟨hst, _⟩ := step_days_some hsd
      subst hst
      exact main _ (add_days_valid hv) he
  · -- weekly
    rcases hbd : r.by_day with _ | ⟨w, i⟩ <;> rw [hbd] at h <;> dsimp only at h
    · rcases hsd : step_days 7 ev.start.date with _ | st <;>
        rw [hsd] at h <;> dsimp only at h
      · injection h with he
        cases he
      · injection h with he
        obtain ⟨hst, _⟩ := step_days_some hsd
        subst hst
        exact main _ (add_days_valid hv) he
    · rcases hco : checked_next_occurrence ev.start.date w with _ | st <;>
        rw [hco] at h <;> dsimp only at h
      · cases h
      · injection h with he
        obtain ⟨hst, _⟩ := checked_next_occurrence_spec hco
        subst hst
        exact main _ (next_occurrence_step hv w).1 he
  · -- monthly
    rcases hsd : step_days 32 ev.start.date with _ | c <;>
      rw [hsd] at h <;> dsimp only at h
    · injection h with he
      cases he
    · obtain ⟨hst, _⟩ := step_days_some hsd
      subst hst
      rcases hmd : monthly_day r ev (add_days 32 ev.start.date) with m | d <;>
        rw [hmd] at h <;> dsimp only at h
      · cases h
      · injection h with he
        exact main _ (monthly_day_valid (add_days_valid hv) hmd) he
  · -- yearly
    rcases hry : ev.start.replace_year
        (ev.start.date.year + u32_as_i32 (r.interval.getD 1)) with _ | s <;>
      rw [hry] at h <;> dsimp only at h
    · cases h
    · obtain ⟨hse, _, _, hd1, hd2⟩ := replace_year_spec hry
      injection h with he
      refine main _ ?_ he
      rw [hse]
      exact valid_mk hv.1 hv.2.1 hd1 hd2

/-- `RepeatRule::next` on an emitted event: start valid, duration and
summary preserved, and every rule field except the counter unchanged. -/
theorem next_emit {r r' : RepeatRule} {ev e' : Event}
    (hv : ev.start.date.Valid)
    (h : r.next ev = .ok (some (r', e'))) :
    e'.start.date.Valid ∧
    e'.end_.instant - e'.start.instant = ev.end_.instant - ev.start.instant ∧
    e'.summary = ev.summary ∧
    r'.freq = r.freq ∧ r'.until_ = r.until_ ∧ r'.by_day = r.by_day ∧
    r'.by_month_day = r.by_month_day ∧ r'.interval = r.interval := by
  unfold RepeatRule.next at h
  have core : ∀ r2 : RepeatRule, r2.freq = r.freq → r2.until_ = r.until_ →
      r2.by_day = r.by_day → r2.by_month_day = r.by_month_day →
      r2.interval = r.interval →
      Except.map (Option.map fun e => (r2, e)) (r2.next_body ev) =
        .ok (some (r', e')) →
      e'.start.date.Valid ∧
      e'.end_.instant - e'.start.instant = ev.end_.instant - ev.start.instant ∧
      e'.summary = ev.summary ∧
      r'.freq = r.freq ∧ r'.until_ = r.until_ ∧ r'.by_day = r.by_day ∧
      r'.by_month_day = r.by_month_day ∧ r'.interval = r.interval := by
    intro r2 e1 e2 e3 e4 e5 hmap
    rcases hb : r2.next_body ev with m | o <;> rw [hb] at hmap <;>
      simp only [Except.map] at hmap
    · cases hmap
    · rcases o with _ | e2' <;> simp only [Option.map] at hmap
      · cases hmap
      · injection hmap with he
        injection he with he1
        have hr2 : r2 = r' := congrArg Prod.fst he1
        have hev : e2' = e' := congrArg Prod.snd he1
        subst hr2
        subst hev
        obtain ⟨a, b, c⟩ := next_body_emit hv hb
        exact ⟨a, b, c, e1, e2, e3, e4, e5⟩
  rcases hc : r.count with _ | n <;> rw [hc] at h <;> dsimp only at h
  · exact core r rfl rfl rfl rfl rfl h
  · rcases n with _ | x <;> dsimp only at h
    · cases h
    · exact core { r with count := some x } rfl rfl rfl rfl rfl h

/-- Equality of every rule field except the counter. -/
def rule_like (a b : RepeatRule) : Prop :=
  a.freq = b.freq ∧ a.until_ = b.until_ ∧ a.by_day = b.by_day ∧
    a.by_month_day = b.by_month_day ∧ a.interval = b.interval

theorem rule_like_trans {a b c : RepeatRule} (h1 : rule_like a b) (h2 : rule_like b c) :
    rule_like a c := by
  obtain ⟨x1, x2, x3, x4, x5⟩ := h1
  obtain ⟨y1, y2, y3, y4, y5⟩ := h2
  exact ⟨x1.trans y1, x2.trans y2, x3.trans y3, x4.trans y4, x5.trans y5⟩

/-- An emitting call of `next` runs `next_body` on a rule that differs from
the callee only in the counter, and returns that same rule. -/
theorem next_some_body {r r' : RepeatRule} {ev e' : Event}
    (h : r.next ev = .ok (some (r', e'))) :
    r'.next_body ev = .ok (some e') ∧ rule_like r' r := by
  unfold RepeatRule.next at h
  have core : ∀ r2 : RepeatRule, rule_like r2 r →
      Except.map (Option.map fun e => (r2, e)) (r2.next_body ev) =
        .ok (some (r', e')) →
      r'.next_body ev = .ok (some e') ∧ rule_like r' r := by
    intro r2 hlike hmap
    rcases hb : r2.next_body ev with m | o <;> rw [hb] at hmap <;>
      simp only [Except.map] at hmap
    · cases hmap
    · rcases o with _ | e2' <;> simp only [Option.map] at hmap
      · cases hmap
      · injection hmap with he
        injection he with he1
        have hr2 : r2 = r' := congrArg Prod.fst he1
        have hev : e2' = e' := congrArg Prod.snd he1
        subst hr2
        subst hev
        exact ⟨hb, hlike⟩
  rcases hc : r.count with _ | n <;> rw [hc] at h <;> dsimp only at h
  · exact core r ⟨rfl, rfl, rfl, rfl, rfl⟩ h
  · rcases n with _ | x <;> dsimp only at h
    · cases h
    · exact core { r with count := some x } ⟨rfl, rfl, rfl, rfl, rfl⟩ h

/-- Along the expansion stream: valid start dates, constant duration,
constant summary, and a rule state that differs from the initial rule only
in its counter. -/
theorem expand_state_invariant {r0 : RepeatRule} {ev : Event}
    (hv : ev.start.date.Valid) (n : Nat) {s : Option RepeatRule × Event}
    (h : expand_state (some r0) ev n = .ok (some s)) :
    s.2.start.date.Valid ∧
    s.2.end_.instant - s.2.start.instant = ev.end_.instant - ev.start.instant ∧
    s.2.summary = ev.summary ∧
    (∃ r1, s.1 = some r1 ∧ rule_like r1 r0) := by
  induction n generalizing s with
  | zero =>
    unfold expand_state at h
    injection h with he
    injection he with he1
    subst he1
    exact ⟨hv, by ring, rfl, r0, rfl, rfl, rfl, rfl, rfl, rfl⟩
  | succ n ih =>
    unfold expand_state at h
    rcases hp : expand_state (some r0) ev n with m | _ | s0 <;> rw [hp] at h <;>
      dsimp only at h
    · cases h
    · cases h
    · obtain ⟨iv, idur, isum, r1, hr1, hlike⟩ := ih hp
      unfold expand_step at h
      rw [hr1] at h
      dsimp only at h
      rcases hn : r1.next s0.2 with m | o2 <;> rw [hn] at h <;>
        simp only [Except.map] at h
      · cases h
      · rcases o2 with _ | p <;> simp only [Option.map] at h
        · cases h
        · injection h with he
          injection he with he1
          subst he1
          obtain ⟨a, b, c, f1, f2, f3, f4, f5⟩ := next_emit iv hn
          refine ⟨a, by dsimp only; omega, c.trans isum, p.1, rfl, ?_⟩
          exact rule_like_trans ⟨f1, f2, f3, f4, f5⟩ hlike

/-- C4.  Duration preservation: every event on the expansion stream has
exactly the duration of the base event (`end - start` as an absolute
duration), because every branch of `RepeatRule::next` sets
`end = candidate_start + (previous.end - previous.start)`. -/
theorem duration_preserved (r0 : RepeatRule) (ev : Event)
    (hv : ev.start.date.Valid) (n : Nat) (e : Event)
    (h : expand_nth (some r0) ev n = .ok (some e)) :
    e.end_.instant - e.start.instant = ev.end_.instant - ev.start.instant := by
  unfold expand_nth at h
  rcases hs : expand_state (some r0) ev n with m | o <;> rw [hs] at h <;>
    simp only [Except.map] at h
  · cases h
  · rcases o with _ | s <;> simp only [Option.map] at h
    · cases h
    · injection h with he
      injection he with he1
      subst he1
      exact (expand_state_invariant hv n hs).2.1

/-- C4 witness: one daily step of a one-hour event keeps the one-hour
duration. -/
theorem duration_preserved_witness :
    (Event.mk "w" ⟨⟨2024, 1, 14⟩, 0, 0⟩ ⟨⟨2024, 1, 14⟩, 3600, 0⟩).end_.instant -
        (Event.mk "w" ⟨⟨2024, 1, 14⟩, 0, 0⟩ ⟨⟨2024, 1, 14⟩, 3600, 0⟩).start.instant =
      (Event.mk "w" ⟨⟨2024, 1, 13⟩, 0, 0⟩ ⟨⟨2024, 1, 13⟩, 3600, 0⟩).end_.instant -
        (Event.mk "w" ⟨⟨2024, 1, 13⟩, 0, 0⟩ ⟨⟨2024, 1, 13⟩, 3600, 0⟩).start.instant :=
  duration_preserved ⟨.daily, none, none, none, none, none⟩
    (Event.mk "w" ⟨⟨2024, 1, 13⟩, 0, 0⟩ ⟨⟨2024, 1, 13⟩, 3600, 0⟩)
    (by decide) 1
    (Event.mk "w" ⟨⟨2024, 1, 14⟩, 0, 0⟩ ⟨⟨2024, 1, 14⟩, 3600, 0⟩)
    (by rfl)

/-- One yearly step: the emitted start has the year of the *previous*
occurrence advanced by `interval as i32` (the wrapped cast), and, since the
emission went through `replace_year`, that year is within the representable
range; all other civil fields and the offset are unchanged. -/
theorem yearly_step {r r' : RepeatRule} {ev e' : Event}
    (hfr : r.freq = .yearly)
    (h : r.next ev = .ok (some (r', e'))) :
    e'.start.date.year = ev.start.date.year + u32_as_i32 (r.interval.getD 1) ∧
    -9999 ≤ e'.start.date.year ∧ e'.start.date.year ≤ 9999 ∧
    e'.start.date.month = ev.start.date.month ∧
    e'.start.date.day = ev.start.date.day ∧
    e'.start.sec = ev.start.sec ∧ e'.start.offset = ev.start.offset := by
  obtain ⟨hb, hlike⟩ := next_some_body h
  have hfr' : r'.freq = .yearly := hlike.1.trans hfr
  have hint : r'.interval = r.interval := hlike.2.2.2.2
  unfold RepeatRule.next_body at hb
  rw [hfr'] at hb
  dsimp only at hb
  rcases hry : ev.start.replace_year (ev.start.date.year + u32_as_i32 (r'.interval.getD 1))
    with _ | s <;> rw [hry] at hb <;> dsimp only at hb
  · cases hb
  · injection hb with he
    have hfin := finish_some he
    obtain ⟨hse, hylow, hyhigh, _, _⟩ := replace_year_spec hry
    rw [hfin]
    dsimp only
    rw [hse]
    dsimp only
    rw [hint] at hylow hyhigh ⊢
    exact ⟨rfl, hylow, hyhigh, rfl, rfl, rfl, rfl⟩

/-- Along the stream the rule state differs from the initial rule only in
its counter (no validity assumptions needed). -/
theorem expand_state_rule {r0 : RepeatRule} {ev : Event} :
    ∀ n : Nat, ∀ {s : Option RepeatRule × Event},
    expand_state (some r0) ev n = .ok (some s) →
    ∃ r1, s.1 = some r1 ∧ rule_like r1 r0 := by
  intro n
  induction n with
  | zero =>
    intro s h
    unfold expand_state at h
    injection h with he
    injection he with he1
    subst he1
    exact ⟨r0, rfl, rfl, rfl, rfl, rfl, rfl⟩
  | succ n ih =>
    intro s h
    unfold expand_state at h
    rcases hp : expand_state (some r0) ev n with m | _ | s0 <;> rw [hp] at h <;>
      dsimp only at h
    · cases h
    · cases h
    · obtain ⟨r1, hr1, hlike⟩ := ih hp
      unfold expand_step at h
      rw [hr1] at h
      dsimp only at h
      rcases hn : r1.next s0.2 with m | o2 <;> rw [hn] at h <;>
        simp only [Except.map] at h
      · cases h
      · rcases o2 with _ | p <;> simp only [Option.map] at h
        · cases h
        · injection h with he
          injection he with he1
          subst he1
          obtain ⟨_, hlike1⟩ := next_some_body hn
          exact ⟨p.1, rfl, rule_like_trans hlike1 hlike⟩

/-- Stream-level yearly bookkeeping, by induction along the stream. -/
theorem yearly_state {r0 : RepeatRule} (hfr : r0.freq = .yearly) {ev : Event} :
    ∀ n : Nat, ∀ {s : Option RepeatRule × Event},
    expand_state (some r0) ev n = .ok (some s) →
    s.2.start.date.year = ev.start.date.year + (n : Int) * u32_as_i32 (r0.interval.getD 1) ∧
    s.2.start.date.month = ev.start.date.month ∧
    s.2.start.date.day = ev.start.date.day ∧
    s.2.start.sec = ev.start.sec ∧
    s.2.start.offset = ev.start.offset := by
  intro n
  induction n with
  | zero =>
    intro s h
    unfold expand_state at h
    injection h with he
    injection he with he1
    subst he1
    refine ⟨by push_cast; ring, rfl, rfl, rfl, rfl⟩
  | succ n ih =>
    intro s h
    unfold expand_state at h
    rcases hp : expand_state (some r0) ev n with m | _ | s0 <;> rw [hp] at h <;>
      dsimp only at h
    · cases h
    · cases h
    · obtain ⟨r1, hr1, hlike⟩ := expand_state_rule n hp
      obtain ⟨i1, i2, i3, i4, i5⟩ := ih hp
      unfold expand_step at h
      rw [hr1] at h
      dsimp only at h
      rcases hn : r1.next s0.2 with m | o2 <;> rw [hn] at h <;>
        simp only [Except.map] at h
      · cases h
      · rcases o2 with _ | p <;> simp only [Option.map] at h
        · cases h
        · injection h with he
          injection he with he1
          subst he1
          have hfr1 : r1.freq = .yearly := hlike.1.trans hfr
          have hint1 : r1.interval = r0.interval := hlike.2.2.2.2
          obtain ⟨y1, _, _, y2, y3, y4, y5⟩ := yearly_step hfr1 hn
          rw [hint1] at y1
          refine ⟨?_, y2.trans i2, y3.trans i3, y4.trans i4, y5.trans i5⟩
          dsimp only
          rw [y1, i1]
          push_cast
          ring

/-- C8 (amended).  For a yearly rule, the `n`-th stream event's year is the
base year plus `n` times the interval reinterpreted as a signed 32-bit
value (`interval as i32`, which wraps to a negative step for parser-accepted
`INTERVAL` values of 2^31 and above): each call to `next` advances the year
of the *immediately preceding* occurrence (cumulative), not the original
first occurrence's year by a fixed `interval`; month, day, time-of-day and
offset are preserved throughout. -/
theorem yearly_year_cumulative {r0 : RepeatRule} (hfr : r0.freq = .yearly)
    {ev : Event} {n : Nat} {e : Event}
    (h : expand_nth (some r0) ev n = .ok (some e)) :
    e.start.date.year = ev.start.date.year + (n : Int) * u32_as_i32 (r0.interval.getD 1) ∧
    e.start.date.month = ev.start.date.month ∧
    e.start.date.day = ev.start.date.day ∧
    e.start.sec = ev.start.sec ∧
    e.start.offset = ev.start.offset := by
  unfold expand_nth at h
  rcases hs : expand_state (some r0) ev n with m | _ | s <;> rw [hs] at h <;>
    simp only [Except.map, Option.map] at h
  · cases h
  · cases h
  · injection h with he
    injection he with he1
    subst he1
    exact yearly_state hfr n hs

/-- C8 witness: the second occurrence of a yearly rule. -/
theorem yearly_year_cumulative_witness :
    (Event.mk "y" ⟨⟨2021, 3, 5⟩, 0, 0⟩ ⟨⟨2021, 3, 5⟩, 3600, 0⟩).start.date.year =
        (Event.mk "y" ⟨⟨2020, 3, 5⟩, 0, 0⟩ ⟨⟨2020, 3, 5⟩, 3600, 0⟩).start.date.year +
          (1 : Int) * u32_as_i32 ((Option.none : Option Nat).getD 1) ∧
    (Event.mk "y" ⟨⟨2021, 3, 5⟩, 0, 0⟩ ⟨⟨2021, 3, 5⟩, 3600, 0⟩).start.date.month =
        (Event.mk "y" ⟨⟨2020, 3, 5⟩, 0, 0⟩ ⟨⟨2020, 3, 5⟩, 3600, 0⟩).start.date.month ∧
    (Event.mk "y" ⟨⟨2021, 3, 5⟩, 0, 0⟩ ⟨⟨2021, 3, 5⟩, 3600, 0⟩).start.date.day =
        (Event.mk "y" ⟨⟨2020, 3, 5⟩, 0, 0⟩ ⟨⟨2020, 3, 5⟩, 3600, 0⟩).start.date.day ∧
    (Event.mk "y" ⟨⟨2021, 3, 5⟩, 0, 0⟩ ⟨⟨2021, 3, 5⟩, 3600, 0⟩).start.sec =
        (Event.mk "y" ⟨⟨2020, 3, 5⟩, 0, 0⟩ ⟨⟨2020, 3, 5⟩, 3600, 0⟩).start.sec ∧
    (Event.mk "y" ⟨⟨2021, 3, 5⟩, 0, 0⟩ ⟨⟨2021, 3, 5⟩, 3600, 0⟩).start.offset =
        (Event.mk "y" ⟨⟨2020, 3, 5⟩, 0, 0⟩ ⟨⟨2020, 3, 5⟩, 3600, 0⟩).start.offset :=
  @yearly_year_cumulative ⟨.yearly, none, none, none, none, none⟩ rfl
    (Event.mk "y" ⟨⟨2020, 3, 5⟩, 0, 0⟩ ⟨⟨2020, 3, 5⟩, 3600, 0⟩) 1
    (Event.mk "y" ⟨⟨2021, 3, 5⟩, 0, 0⟩ ⟨⟨2021, 3, 5⟩, 3600, 0⟩) (by rfl)

/-- C8 counterexample: with `FREQ=YEARLY` (interval defaulting to 1) from a
2020 base, the third stream element (second emitted occurrence) has year
2022, not the 2021 that "advance the original first start's year by
`interval`" would give for every emitted occurrence. -/
theorem yearly_not_from_original :
    expand_nth (some ⟨.yearly, none, none, none, none, none⟩)
        (Event.mk "y" ⟨⟨2020, 3, 5⟩, 0, 0⟩ ⟨⟨2020, 3, 5⟩, 3600, 0⟩) 2 =
      .ok (some (Event.mk "y" ⟨⟨2022, 3, 5⟩, 0, 0⟩ ⟨⟨2022, 3, 5⟩, 3600, 0⟩)) ∧
    (2022 : Int) ≠ 2020 + 1 :=
  ⟨by rfl, by decide⟩

theorem monthly_day_congr {r r' : RepeatRule} (h : rule_like r' r) (ev : Event) (c : Date) :
    monthly_day r' ev c = monthly_day r ev c := by
  unfold monthly_day
  rw [h.2.2.1, h.2.2.2.1]

set_option maxRecDepth 4000 in
/-- C9 (amended).  A monthly step computes its candidate date by adding 32
days to the previous occurrence's date.  That candidate is in the month
immediately following the previous month exactly when
`day + 32 <= len(month) + len(next month)`; otherwise (days near the end of
a month followed by a short month, e.g. Jan 29-31 before a 28-day
February) it lands in the *second* following month.  The emitted start date
is the candidate re-derived through the day-of-month rules (clamped
BYMONTHDAY, Nth/last-Nth weekday, or the previous day-of-month as
fallback), keeping time-of-day and offset. -/
theorem monthly_step_lands {r r' : RepeatRule} {ev e' : Event}
    (hfr : r.freq = .monthly) (hv : ev.start.date.Valid)
    (h : r.next ev = .ok (some (r', e'))) :
    (add_days 32 ev.start.date).Valid ∧
    (month_idx (add_days 32 ev.start.date) = month_idx ev.start.date + 1 ∨
      month_idx (add_days 32 ev.start.date) = month_idx ev.start.date + 2) ∧
    (month_idx (add_days 32 ev.start.date) = month_idx ev.start.date + 1 ↔
      ev.start.date.day + 32 ≤
        days_in_year_month ev.start.date.year ev.start.date.month +
          days_in_year_month (next_month ev.start.date).year
            (next_month ev.start.date).month) ∧
    monthly_day r ev (add_days 32 ev.start.date) = .ok e'.start.date ∧
    e'.start.sec = ev.start.sec ∧ e'.start.offset = ev.start.offset := by
  obtain ⟨hb, hlike⟩ := next_some_body h
  have hfr' : r'.freq = .monthly := hlike.1.trans hfr
  unfold RepeatRule.next_body at hb
  rw [hfr'] at hb
  dsimp only at hb
  rcases hsd : step_days 32 ev.start.date with _ | c <;>
    rw [hsd] at hb <;> dsimp only at hb
  · injection hb with he
    cases he
  · have hst := (step_days_some hsd).1
    subst hst
    rcases hmd : monthly_day r' ev (add_days 32 ev.start.date) with m | d <;>
      rw [hmd] at hb <;> dsimp only at hb
    · cases hb
    · injection hb with he
      have hfin := finish_some he
      have hiff : month_idx (add_days 32 ev.start.date) = month_idx ev.start.date + 1 ↔
          ev.start.date.day + 32 ≤
            days_in_year_month ev.start.date.year ev.start.date.month +
              days_in_year_month (next_month ev.start.date).year
                (next_month ev.start.date).month := by
        have e1 := month_idx_next_month hv
        have e2 := month_idx_next_month (next_month_valid hv)
        rcases add_days_32_spec hv with ⟨hc, h32⟩ | ⟨hc, h32⟩ <;> rw [h32] <;>
          constructor <;> intro hx
        · exact hc
        · unfold month_idx at *
          dsimp only
          omega
        · unfold month_idx at *
          dsimp only at hx
          omega
        · omega
      refine ⟨add_days_valid hv, month_idx_add_days_32 hv, hiff, ?_, ?_, ?_⟩
      · rw [hfin]
        dsimp only [OffsetDateTime.replace_date]
        rw [monthly_day_congr hlike] at hmd
        exact hmd
      · rw [hfin]
        rfl
      · rw [hfin]
        rfl

set_option maxRecDepth 4000 in
/-- C9 witness: a mid-month base (Jan 15) steps to the immediately
following month. -/
theorem monthly_step_lands_witness :
    ((add_days 32 (⟨2024, 1, 15⟩ : Date)).Valid ∧
    (month_idx (add_days 32 (⟨2024, 1, 15⟩ : Date)) =
        month_idx (⟨2024, 1, 15⟩ : Date) + 1 ∨
      month_idx (add_days 32 (⟨2024, 1, 15⟩ : Date)) =
        month_idx (⟨2024, 1, 15⟩ : Date) + 2) ∧
    (month_idx (add_days 32 (⟨2024, 1, 15⟩ : Date)) =
        month_idx (⟨2024, 1, 15⟩ : Date) + 1 ↔
      (⟨2024, 1, 15⟩ : Date).day + 32 ≤
        days_in_year_month 2024 1 +
          days_in_year_month (next_month ⟨2024, 1, 15⟩).year
            (next_month ⟨2024, 1, 15⟩).month) ∧
    monthly_day ⟨.monthly, none, none, none, none, none⟩
        (Event.mk "m" ⟨⟨2024, 1, 15⟩, 0, 0⟩ ⟨⟨2024, 1, 15⟩, 3600, 0⟩)
        (add_days 32 (⟨2024, 1, 15⟩ : Date)) =
      .ok (Event.mk "m" ⟨⟨2024, 2, 15⟩, 0, 0⟩ ⟨⟨2024, 2, 15⟩, 3600, 0⟩).start.date ∧
    (Event.mk "m" ⟨⟨2024, 2, 15⟩, 0, 0⟩ ⟨⟨2024, 2, 15⟩, 3600, 0⟩).start.sec =
      (Event.mk "m" ⟨⟨2024, 1, 15⟩, 0, 0⟩ ⟨⟨2024, 1, 15⟩, 3600, 0⟩).start.sec ∧
    (Event.mk "m" ⟨⟨2024, 2, 15⟩, 0, 0⟩ ⟨⟨2024, 2, 15⟩, 3600, 0⟩).start.offset =
      (Event.mk "m" ⟨⟨2024, 1, 15⟩, 0, 0⟩ ⟨⟨2024, 1, 15⟩, 3600, 0⟩).start.offset) :=
  @monthly_step_lands ⟨.monthly, none, none, none, none, none⟩
    ⟨.monthly, none, none, none, none, none⟩
    (Event.mk "m" ⟨⟨2024, 1, 15⟩, 0, 0⟩ ⟨⟨2024, 1, 15⟩, 3600, 0⟩)
    (Event.mk "m" ⟨⟨2024, 2, 15⟩, 0, 0⟩ ⟨⟨2024, 2, 15⟩, 3600, 0⟩)
    rfl (by decide) (by rfl)

set_option maxRecDepth 4000 in
/-- C9 counterexample: from Jan 31 2023 the 32-day step lands on
Mar 4 2023 - the *second* following month - and the emitted monthly
occurrence falls in March, so the step does not always land in the month
immediately following. -/
theorem monthly_step_two_months :
    add_days 32 (⟨2023, 1, 31⟩ : Date) = ⟨2023, 3, 4⟩ ∧
    expand_nth (some ⟨.monthly, none, none, none, none, none⟩)
        (Event.mk "m" ⟨⟨2023, 1, 31⟩, 0, 0⟩ ⟨⟨2023, 1, 31⟩, 3600, 0⟩) 1 =
      .ok (some (Event.mk "m" ⟨⟨2023, 3, 31⟩, 0, 0⟩ ⟨⟨2023, 3, 31⟩, 3600, 0⟩)) ∧
    (⟨2023, 3, 31⟩ : Date).month ≠ (⟨2023, 1, 31⟩ : Date).month + 1 :=
  ⟨by rfl, by rfl, by decide⟩

/-- Splitting a character list on a separator, keeping empty segments:
the behaviour of Rust `str::split(c)`. -/
def split_on_char (ch : Char) : List Char → List (List Char)
  | [] => [[]]
  | c :: t =>
    if c = ch then [] :: split_on_char ch t
    else
      match split_on_char ch t with
      | [] => [[c]]
      | h :: r => (c :: h) :: r

/-- Rust `str::split_once(c)`: split at the first occurrence only. -/
def split_once (ch : Char) : List Char → Option (List Char × List Char)
  | [] => none
  | c :: t =>
    if c = ch then some ([], t)
    else (split_once ch t).map (fun p => (c :: p.1, p.2))

/-- Consume exactly `n` decimal digits, most significant first. -/
def take_digits : Nat → List Char → Nat → Option (Nat × List Char)
  | 0, l, acc => some (acc, l)
  | _ + 1, [], _ => none
  | n + 1, c :: t, acc =>
    if c.isDigit then take_digits n t (acc * 10 + (c.toNat - 48)) else none

/-- Rust `str::parse::<u32>()`: optional leading plus sign, one or more
digits, value within `u32`. -/
def parse_u32 (l : List Char) : Option Nat :=
  let l1 := match l with
    | '+' :: t => t
    | _ => l
  if l1 = [] then none
  else if l1.all (fun c => c.isDigit) then
    let v := l1.foldl (fun a c => a * 10 + (c.toNat - 48)) 0
    if v ≤ 4294967295 then some v else none
  else none

/-- Rust `str::parse::<u8>()`. -/
def parse_u8 (l : List Char) : Option Nat :=
  let l1 := match l with
    | '+' :: t => t
    | _ => l
  if l1 = [] then none
  else if l1.all (fun c => c.isDigit) then
    let v := l1.foldl (fun a c => a * 10 + (c.toNat - 48)) 0
    if v ≤ 255 then some v else none
  else none

/-- The date part of the repository's fixed ISO-8601 layout, `YYYYMMDD`
(the `ICAL_DT` config: no separators), validated as a calendar date. -/
def parse_date_chars (l : List Char) : Option (Date × List Char) := do
  let (y, l1) ← take_digits 4 l 0
  let (mo, l2) ← take_digits 2 l1 0
  let (dd, l3) ← take_digits 2 l2 0
  let d : Date := ⟨(y : Int), (mo : Int), (dd : Int)⟩
  if d.Valid then some (d, l3) else none

/-- The time part `HHMMSS` (second precision, no separators), as a
second-of-day count. -/
def parse_time_chars (l : List Char) : Option (Nat × List Char) := do
  let (hh, l1) ← take_digits 2 l 0
  let (mi, l2) ← take_digits 2 l1 0
  let (ss, l3) ← take_digits 2 l2 0
  if hh ≤ 23 ∧ mi ≤ 59 ∧ ss ≤ 59 then some (hh * 3600 + mi * 60 + ss, l3) else none

/-- `YYYYMMDDTHHMMSS`: the repository's `PrimitiveDateTime` layout. -/
def parse_primitive_chars (l : List Char) : Option ((Date × Nat) × List Char) := do
  let (d, l1) ← parse_date_chars l
  match l1 with
  | 'T' :: l2 =>
    let (s, l3) ← parse_time_chars l2
    some ((d, s), l3)
  | _ => none

/-- A UTC designator or a `±HH[MM[SS]]` offset, in seconds. -/
def parse_offset_chars (l : List Char) : Option (Int × List Char) :=
  match l with
  | 'Z' :: t => some (0, t)
  | 'z' :: t => some (0, t)
  | c :: t =>
    if c = '+' ∨ c = '-' then do
      let (hh, l1) ← take_digits 2 t 0
      if hh ≤ 23 then
        let (mi, l2) := ((take_digits 2 l1 0).map (fun p => (p.1, p.2))).getD (0, l1)
        if mi ≤ 59 then
          let (ss, l3) := ((take_digits 2 l2 0).map (fun p => (p.1, p.2))).getD (0, l2)
          if ss ≤ 59 then
            let mag : Int := hh * 3600 + mi * 60 + ss
            some (if c = '-' then -mag else mag, l3)
          else none
        else none
      else none
    else none
  | [] => none

/-- `Date::parse` with the repository's date-only layout: the whole input
must be consumed. -/
def parse_date_only (s : String) : Option Date :=
  match parse_date_chars s.toList with
  | some (d, []) => some d
  | _ => none

/-- `PrimitiveDateTime::parse` with the repository's layout. -/
def parse_primitive (s : String) : Option (Date × Nat) :=
  match parse_primitive_chars s.toList with
  | some (q, []) => some q
  | _ => none

/-- `OffsetDateTime::parse` with the repository's layout: local date+time
followed by an explicit offset. -/
def parse_odt (s : String) : Option OffsetDateTime :=
  match parse_primitive_chars s.toList with
  | some ((d, sec), rest) =>
    match parse_offset_chars rest with
    | some (off, []) => some ⟨d, (sec : Int), off⟩
    | _ => none
  | _ => none

/-- `try_various_untils` (lines 326-342): a full offset timestamp, else a
bare date taken at UTC midnight. -/
def try_various_untils (val : String) : Option OffsetDateTime :=
  match parse_odt val with
  | some t => some t
  | none => (parse_date_only val).map (fun d => ⟨d, 0, 0⟩)

/-- The `parse_weekday` helper of `parse_by_day` (lines 345-357). -/
def parse_weekday (val : List Char) : Option Weekday :=
  if val = "MO".toList then some .monday
  else if val = "TU".toList then some .tuesday
  else if val = "WE".toList then some .wednesday
  else if val = "TH".toList then some .thursday
  else if val = "FR".toList then some .friday
  else if val = "SA".toList then some .saturday
  else if val = "SU".toList then some .sunday
  else none

/-- The `parse_int` helper of `parse_by_day` (lines 359-374).  It strips an
optional minus sign and reads at most one digit; the recorded sign is never
applied to the result (source behaviour: the `neg` flag is computed and
dropped), so the returned ordinal is never negative. -/
def parse_int_core : List Char → Option Int × List Char
  | c :: t => if c.isDigit then (some ((c.toNat - 48 : Nat) : Int), t) else (none, c :: t)
  | [] => (none, [])

def parse_int (val : List Char) : Option Int × List Char :=
  parse_int_core (match val with
    | c :: t => if c = '-' then t else c :: t
    | [] => [])

/-- `parse_by_day` (lines 344-378): optional single-digit ordinal (defaulting
to 0) followed by a two-letter weekday code. -/
def parse_by_day (val : List Char) : Option (Weekday × Int) :=
  let p := parse_int val
  (parse_weekday p.2).map (fun w => (w, p.1.getD 0))

/-- The key-value loop of `RepeatRule::parse` (lines 180-194).  `freq` is
tracked separately, as in the source; malformed UNTIL / BYMONTHDAY /
INTERVAL / COUNT values hit the source's `expect` calls, modelled as
`.error`; a malformed BYDAY is stored as `none` without failing. -/
def parse_fold : List (List Char × List Char) → Option Freq → RepeatRule →
    Except String (Option Freq × RepeatRule)
  | [], f, acc => .ok (f, acc)
  | (key, val) :: rest, f, acc =>
    if key = "FREQ".toList then parse_fold rest (Freq.parse (String.mk val)) acc
    else if key = "UNTIL".toList then
      match try_various_untils (String.mk val) with
      | some u => parse_fold rest f { acc with until_ := some u }
      | none => .error "failed to parse UNTIL"
    else if key = "BYDAY".toList then parse_fold rest f { acc with by_day := parse_by_day val }
    else if key = "BYMONTHDAY".toList then
      match parse_u8 val with
      | some v => parse_fold rest f { acc with by_month_day := some (v : Int) }
      | none => .error "an integer"
    else if key = "INTERVAL".toList then
      match parse_u32 val with
      | some v => parse_fold rest f { acc with interval := some v }
      | none => .error "an integer"
    else if key = "COUNT".toList then
      match parse_u32 val with
      | some v => parse_fold rest f { acc with count := some v }
      | none => .error "an integer"
    else parse_fold rest f acc

/-- `RepeatRule::parse` (lines 176-198).  `.ok none` is the soft failure
(`FREQ` absent or unrecognised); `.error` is a panic escaping the function. -/
def RepeatRule.parse (s : String) : Except String (Option RepeatRule) :=
  match parse_fold ((split_on_char ';' s.toList).filterMap (split_once '='))
      none ⟨.weekly, none, none, none, none, none⟩ with
  | .error m => .error m
  | .ok (none, _) => .ok none
  | .ok (some f, acc) => .ok (some { acc with freq := f })

/-- C6.  Malformed values for the recognized keys UNTIL, BYMONTHDAY,
INTERVAL and COUNT do *not* make `RepeatRule::parse` return empty: they hit
the source's `.expect(..)` calls, i.e. a panic that escapes the rule parse
(the event is not kept as a single occurrence - the whole process aborts).
Each conjunct evaluates the parser at a failing input. -/
theorem malformed_rrule_value_panics :
    RepeatRule.parse "FREQ=DAILY;INTERVAL=x" = .error "an integer" ∧
    RepeatRule.parse "FREQ=DAILY;COUNT=x" = .error "an integer" ∧
    RepeatRule.parse "FREQ=DAILY;BYMONTHDAY=x" = .error "an integer" ∧
    RepeatRule.parse "FREQ=DAILY;UNTIL=banana" = .error "failed to parse UNTIL" ∧
    RepeatRule.parse "FREQ=DAILY;INTERVAL=7" =
      .ok (some ⟨.daily, none, none, none, some 7, none⟩) :=
  ⟨by rfl, by rfl, by rfl, by rfl, by rfl⟩

theorem days_in_year_month_ge (y m : Int) : 28 ≤ days_in_year_month y m := by
  unfold days_in_year_month
  split_ifs <;> omega

/-- With a weekday selector of ordinal 0 (what a BYDAY value without an
explicit ordinal parses to), the monthly day re-derivation always reaches
the `nth_prev_occurrence(.., 0)` panic. -/
theorem monthly_day_ordinal_zero {r : RepeatRule} {w : Weekday} (ev : Event) (c : Date)
    (hbmd : r.by_month_day = none) (hbd : r.by_day = some (w, 0)) :
    monthly_day r ev c = .error "nth prev occurrence overflow" := by
  unfold monthly_day
  rw [hbmd, hbd]
  dsimp only
  rw [if_neg (by omega)]
  have hrd : c.replace_day (days_in_year_month c.year c.month) =
      some ⟨c.year, c.month, days_in_year_month c.year c.month⟩ := by
    unfold Date.replace_day
    rw [if_pos ⟨by have := days_in_year_month_ge c.year c.month; omega, le_refl _⟩]
  rw [hrd]
  rfl

/-- With a weekday selector of nonzero ordinal of magnitude at most 9, the
monthly day re-derivation never panics, provided the landing month's year
keeps the (at most 9-week) weekday walk inside the representable range. -/
theorem monthly_day_ordinal_nonzero {r : RepeatRule} {w : Weekday} {i : Int}
    (ev : Event) (c : Date) (hcv : c.Valid)
    (hclow : -9998 ≤ c.year) (hchigh : c.year ≤ 9998)
    (hbmd : r.by_month_day = none) (hbd : r.by_day = some (w, i))
    (hi : 1 ≤ i.natAbs) (hi9 : i.natAbs ≤ 9) :
    ∃ d, monthly_day r ev c = .ok d := by
  unfold monthly_day
  rw [hbmd, hbd]
  dsimp only
  have hge := days_in_year_month_ge c.year c.month
  rcases lt_trichotomy i 0 with hneg | hzero | hpos
  · rw [if_neg (by omega)]
    have hrd : c.replace_day (days_in_year_month c.year c.month) =
        some ⟨c.year, c.month, days_in_year_month c.year c.month⟩ := by
      unfold Date.replace_day
      rw [if_pos ⟨by omega, le_refl _⟩]
    rw [hrd]
    dsimp only
    have hclv : (Date.mk c.year c.month (days_in_year_month c.year c.month)).Valid :=
      valid_mk hcv.1 hcv.2.1 (by omega) (le_refl _)
    obtain ⟨d2, hd2⟩ := checked_nth_prev_occurrence_some hclv w
      (n := (-i).toNat) (by omega) (by omega) (by dsimp only; omega)
    rw [hd2]
    exact ⟨_, rfl⟩
  · omega
  · rw [if_pos hpos]
    have hrd : c.replace_day 1 = some ⟨c.year, c.month, 1⟩ := by
      unfold Date.replace_day
      rw [if_pos ⟨le_refl _, by omega⟩]
    rw [hrd]
    dsimp only
    have hc1v : (Date.mk c.year c.month 1).Valid :=
      valid_mk hcv.1 hcv.2.1 (le_refl _) (by omega)
    obtain ⟨d2, hd2⟩ := checked_nth_next_occurrence_some hc1v w
      (n := i.toNat) (by omega) (by omega) (by dsimp only; omega)
    rw [hd2]
    exact ⟨_, rfl⟩

set_option maxRecDepth 4000 in
/-- C10 (amended).  On the monthly path with a weekday selector: a BYDAY
value with no explicit ordinal parses to ordinal 0; a rule carrying
ordinal 0 (with a live counter, from any well-formed previous occurrence
whose 32-day step stays representable) always panics in
`nth_prev_occurrence(.., 0)`; and for any ordinal of nonzero magnitude at
most 9 the branch does not panic *provided* the previous occurrence's year
lies within -9998..=9997, which keeps the at-most-9-week weekday walk from
the landing month inside the crate's representable range.  (At the very
boundary the walk can overflow and panic - see the counterexample.) -/
theorem monthly_by_day_panic_boundary :
    parse_by_day "SA".toList = some (.saturday, 0) ∧
    (∀ (r : RepeatRule) (ev : Event) (w : Weekday),
      r.freq = .monthly → r.by_month_day = none → r.by_day = some (w, 0) →
      r.count ≠ some 0 → ev.start.date.Valid → ev.start.date.year ≤ 9998 →
      r.next ev = .error "nth prev occurrence overflow") ∧
    (∀ (r : RepeatRule) (ev : Event) (w : Weekday) (i : Int),
      r.freq = .monthly → r.by_month_day = none → r.by_day = some (w, i) →
      1 ≤ i.natAbs → i.natAbs ≤ 9 → ev.start.date.Valid →
      -9998 ≤ ev.start.date.year → ev.start.date.year ≤ 9997 →
      ∃ o, r.next ev = .ok o) := by
  refine ⟨by rfl, ?_, ?_⟩
  · intro r ev w hfr hbmd hbd hcnt hv hy
    have hcv := add_days_valid (n := 32) hv
    have hyup := year_le_of_rata_le hv hcv (by rw [rata_add_days hv]; omega)
    have body : ∀ r2 : RepeatRule, rule_like r2 r →
        r2.next_body ev = .error "nth prev occurrence overflow" := by
      intro r2 hlike
      unfold RepeatRule.next_body
      rw [hlike.1.trans hfr]
      dsimp only
      rw [step_days_of_year_le (by omega)]
      dsimp only
      rw [monthly_day_ordinal_zero ev (add_days 32 ev.start.date)
        (hlike.2.2.2.1.trans hbmd) (hlike.2.2.1.trans hbd)]
    unfold RepeatRule.next
    rcases hc : r.count with _ | n
    · rw [body r ⟨rfl, rfl, rfl, rfl, rfl⟩]
      rfl
    · rcases n with _ | x
      · exact absurd hc hcnt
      · dsimp only
        rw [body { r with count := some x } ⟨rfl, rfl, rfl, rfl, rfl⟩]
        rfl
  · intro r ev w i hfr hbmd hbd hi1 hi9 hv hylow hyhigh
    have hcv := add_days_valid (n := 32) hv
    have hyup := year_le_of_rata_le hv hcv (by rw [rata_add_days hv]; omega)
    have hydown := year_mono_of_rata_le hv hcv (by rw [rata_add_days hv]; omega)
    have body : ∀ r2 : RepeatRule, rule_like r2 r →
        ∃ o2, r2.next_body ev = .ok o2 := by
      intro r2 hlike
      unfold RepeatRule.next_body
      rw [hlike.1.trans hfr]
      dsimp only
      rw [step_days_of_year_le (by omega)]
      dsimp only
      obtain ⟨d, hd⟩ := monthly_day_ordinal_nonzero ev (add_days 32 ev.start.date)
        hcv (by omega) (by omega)
        (hlike.2.2.2.1.trans hbmd) (hlike.2.2.1.trans hbd) hi1 hi9
      rw [hd]
      exact ⟨_, rfl⟩
    unfold RepeatRule.next
    rcases hc : r.count with _ | n
    · obtain ⟨o2, ho2⟩ := body r ⟨rfl, rfl, rfl, rfl, rfl⟩
      rw [ho2]
      exact ⟨_, rfl⟩
    · rcases n with _ | x
      · exact ⟨none, rfl⟩
      · dsimp only
        obtain ⟨o2, ho2⟩ := body { r with count := some x } ⟨rfl, rfl, rfl, rfl, rfl⟩
        rw [ho2]
        exact ⟨_, rfl⟩

set_option maxRecDepth 4000 in
/-- C10 witness: a concrete ordinal-0 rule panics on a concrete event well
inside the representable range, a concrete ordinal-2 rule does not. -/
theorem monthly_by_day_panic_boundary_witness :
    (RepeatRule.mk .monthly none (some (.saturday, 0)) none none none).next
        (Event.mk "m" ⟨⟨2024, 1, 15⟩, 0, 0⟩ ⟨⟨2024, 1, 15⟩, 3600, 0⟩) =
      .error "nth prev occurrence overflow" ∧
    ∃ o, (RepeatRule.mk .monthly none (some (.tuesday, 2)) none none none).next
        (Event.mk "m" ⟨⟨2024, 1, 15⟩, 0, 0⟩ ⟨⟨2024, 1, 15⟩, 3600, 0⟩) = .ok o :=
  ⟨monthly_by_day_panic_boundary.2.1 _ _ _ rfl rfl rfl (by simp) (by decide) (by decide),
    monthly_by_day_panic_boundary.2.2 _ _ _ 2 rfl rfl rfl (by decide) (by decide)
      (by decide) (by decide) (by decide)⟩

set_option maxRecDepth 8000 in
/-- C10 counterexample: `9MO` parses (ordinal 9, Monday), yet the branch is
not total for that ordinal at the top of the representable range: from a
previous occurrence on 9999-11-29 the 32-day step lands on 9999-12-31
(still representable), and the walk to the 9th next Monday counted from
9999-12-01 would reach 10000-01-31, past the crate's maximal date, so the
unchecked `nth_next_occurrence` call panics. -/
theorem monthly_nth_occurrence_cap_panics :
    parse_by_day "9MO".toList = some (.monday, 9) ∧
    add_days 32 (⟨9999, 11, 29⟩ : Date) = ⟨9999, 12, 31⟩ ∧
    (RepeatRule.mk .monthly none (some (.monday, 9)) none none none).next
        (Event.mk "m" ⟨⟨9999, 11, 29⟩, 0, 0⟩ ⟨⟨9999, 11, 29⟩, 3600, 0⟩) =
      .error "nth next occurrence overflow" :=
  ⟨by rfl, by rfl, by rfl⟩

/-- One property of an iCal component, as handed over by the external
structural parser (`ical::property::Property`): a name, an optional value,
and an optional list of (parameter name, value list) pairs. -/
structure Property where
  name : String
  value : Option String
  params : Option (List (String × List String))
deriving DecidableEq, Repr

/-- `PropParser::find` (lines 68-70). -/
def find_prop (props : List Property) (name : String) : Option Property :=
  props.find? (fun p => p.name == name)

/-- `find_param` (lines 401-408): the first value of the named parameter. -/
def find_param (p : Property) (name : String) : Option String :=
  match p.params with
  | none => none
  | some ps => ((ps.find? (fun x => x.1 == name)).bind (fun x => x.2.head?))

/-- The value-resolution closure of `PropParser::datetime` (lines 97-151):
the zone decision table.  A `DATE` value is midnight at the target offset;
`Australia/Brisbane` is fixed +10:00; `Australia/Sydney` is +11:00 for
months 1-3 and 10-12 and +10:00 for months 4-9; any other TZID fails; no
parameter means a fully offset-qualified timestamp. -/
def parse_datetime_value (p : Property) (offset : Int) : Option OffsetDateTime := do
  let val ← p.value
  let tz := match find_param p "TZID" with
    | some t => some t
    | none => find_param p "VALUE"
  match tz with
  | some s =>
    if s = "DATE" then
      (parse_date_only val).map (fun d => OffsetDateTime.mk d 0 offset)
    else if s = "Australia/Brisbane" then
      (parse_primitive val).map (fun q => ⟨q.1, (q.2 : Int), 36000⟩)
    else if s = "Australia/Sydney" then
      (parse_primitive val).map (fun q =>
        ⟨q.1, (q.2 : Int), if q.1.month ≤ 3 ∨ 10 ≤ q.1.month then 39600 else 36000⟩)
    else none
  | none => parse_odt val

/-- `PropParser::parse` (lines 72-90): find the property and parse its
value; both failure modes are logged warnings and yield `none`. -/
def prop_parse {α : Type} (props : List Property) (name : String)
    (f : Property → Option α) : Option α :=
  (find_prop props name).bind f

/-- `PropParser::str` (lines 92-94). -/
def prop_str (props : List Property) (name : String) : Option String :=
  prop_parse props name (fun p => p.value)

/-- `PropParser::datetime` (lines 96-152). -/
def prop_datetime (props : List Property) (name : String) (offset : Int) :
    Option OffsetDateTime :=
  prop_parse props name (fun p => parse_datetime_value p offset)

/-- `PropParser::rrule` (lines 154-162): absence of the property or of its
value is a soft failure; parsing the value may panic. -/
def prop_rrule (props : List Property) : Except String (Option RepeatRule) :=
  match find_prop props "RRULE" with
  | none => .ok none
  | some p =>
    match p.value with
    | none => .ok none
    | some v => RepeatRule.parse v

/-- The base event of `make_event` (lines 51-60). -/
def first_event (props : List Property) (offset : Int) : Option Event := do
  let summary ← prop_str props "SUMMARY"
  let start ← (prop_datetime props "DTSTART" offset).map (fun t => t.to_offset offset)
  let e ← (prop_datetime props "DTEND" offset).map (fun t => t.to_offset offset)
  pure ⟨summary, start, e⟩

/-- The rule of `make_event` (line 49): parsed, then re-expressed in the
target offset. -/
def event_rrule (props : List Property) (offset : Int) :
    Except String (Option RepeatRule) :=
  (prop_rrule props).map (Option.map (fun r => r.to_offset offset))

/-- The `take_while(|x| x.start < limit)` drive of one component's
expansion stream (line 38), with explicit fuel standing for the number of
loop iterations the lazy Rust iterator would run; the Rust computation is
the limit of this function as the fuel grows.  Generation of the next
element (which can panic) happens only after the current element passed the
horizon check, exactly as in the lazy `take_while`. -/
def take_occurrences (limit : OffsetDateTime) :
    Nat → Option RepeatRule → Event → Except String (List Event)
  | 0, _, _ => .ok []
  | fuel + 1, r, ev =>
    if OffsetDateTime.lt ev.start limit then
      match expand_step (r, ev) with
      | .error m => .error m
      | .ok none => .ok [ev]
      | .ok (some s') => (take_occurrences limit fuel s'.1 s'.2).map (fun l => ev :: l)
    else .ok []

/-- `make_event` (lines 47-63) driven through the horizon check: the rule
is built first (its parse can panic even when the base event is dropped),
then the base event, then the bounded expansion. -/
def make_event (fuel : Nat) (props : List Property) (offset : Int)
    (limit : OffsetDateTime) : Except String (List Event) :=
  match event_rrule props offset with
  | .error m => .error m
  | .ok r =>
    match first_event props offset with
    | none => .ok []
    | some e0 => take_occurrences limit fuel r e0

/-- All events of a list of components, in order (the `flat_map` of
line 38 over one or more calendar blocks, flattened). -/
def events_of_components (fuel : Nat) (offset : Int) (limit : OffsetDateTime) :
    List (List Property) → Except String (List Event)
  | [] => .ok []
  | comp :: rest =>
    match make_event fuel comp offset limit with
    | .error m => .error m
    | .ok l1 =>
      match events_of_components fuel offset limit rest with
      | .error m => .error m
      | .ok l2 => .ok (l1 ++ l2)

/-- The sort key of line 42: `a.start.cmp(&b.start)`, i.e. instants. -/
def ev_le (a b : Event) : Prop :=
  a.start.instant ≤ b.start.instant

instance : DecidableRel ev_le := fun a b => by
  unfold ev_le
  infer_instance

instance : IsTotal Event ev_le :=
  ⟨fun a b => le_total a.start.instant b.start.instant⟩

instance : IsTrans Event ev_le :=
  ⟨fun _ _ _ h1 h2 => le_trans h1 h2⟩

/-- `parse_ical` (lines 30-45) over already-structurally-parsed calendar
blocks (structural parsing belongs to the external `ical` crate): flatten
every block's components, expand each against the horizon, and sort the
result by start with a stable sort (Rust `sort_by` is stable; insertion
sort with `<=` is the same stable sort). -/
def parse_ical (fuel : Nat) (cals : List (List (List Property))) (offset : Int)
    (limit : OffsetDateTime) : Except String (List Event) :=
  match events_of_components fuel offset limit cals.flatten with
  | .error m => .error m
  | .ok evs => .ok (evs.insertionSort ev_le)

/-- C7.  For every local date+time value that parses, `TZID=Australia/Sydney`
resolves with the shorter +10:00 offset exactly in months 4-9 and with the
longer +11:00 offset in months 1-3 and 10-12, while
`TZID=Australia/Brisbane` resolves with the fixed +10:00 offset in every
month. -/
theorem zone_offsets (name val : String) (off : Int) (d : Date) (sec : Nat)
    (hp : parse_primitive val = some (d, sec)) :
    parse_datetime_value ⟨name, some val, some [("TZID", ["Australia/Sydney"])]⟩ off =
      some ⟨d, (sec : Int), if 4 ≤ d.month ∧ d.month ≤ 9 then 36000 else 39600⟩ ∧
    parse_datetime_value ⟨name, some val, some [("TZID", ["Australia/Brisbane"])]⟩ off =
      some ⟨d, (sec : Int), 36000⟩ := by
  have hoff : (if d.month ≤ 3 ∨ 10 ≤ d.month then (39600 : Int) else 36000) =
      (if 4 ≤ d.month ∧ d.month ≤ 9 then (36000 : Int) else 39600) := by
    split_ifs with h1 h2 <;> omega
  constructor <;> simp [parse_datetime_value, find_param, hp, hoff]

/-- C7 witness: the spec's zone-table example, `20240615T100000`. -/
theorem zone_offsets_witness :
    parse_datetime_value
        ⟨"DTSTART", some "20240615T100000", some [("TZID", ["Australia/Sydney"])]⟩ 0 =
      some ⟨⟨2024, 6, 15⟩, ((36000 : Nat) : Int),
        if 4 ≤ (⟨2024, 6, 15⟩ : Date).month ∧ (⟨2024, 6, 15⟩ : Date).month ≤ 9
        then 36000 else 39600⟩ ∧
    parse_datetime_value
        ⟨"DTSTART", some "20240615T100000", some [("TZID", ["Australia/Brisbane"])]⟩ 0 =
      some ⟨⟨2024, 6, 15⟩, ((36000 : Nat) : Int), 36000⟩ :=
  zone_offsets "DTSTART" "20240615T100000" 0 ⟨2024, 6, 15⟩ 36000 (by rfl)

theorem take_occurrences_lt {limit : OffsetDateTime} :
    ∀ (fuel : Nat) (r : Option RepeatRule) (ev : Event) (l : List Event),
    take_occurrences limit fuel r ev = .ok l →
    ∀ e ∈ l, OffsetDateTime.lt e.start limit := by
  intro fuel
  induction fuel with
  | zero =>
    intro r ev l h e he
    unfold take_occurrences at h
    injection h with h1
    subst h1
    cases he
  | succ fuel ih =>
    intro r ev l h e he
    unfold take_occurrences at h
    split_ifs at h with hpred
    · rcases hs : expand_step (r, ev) with m | _ | s' <;> rw [hs] at h <;>
        dsimp only at h
      · cases h
      · injection h with h1
        subst h1
        rcases he with _ | ⟨_, hmem⟩
        · exact hpred
        · cases hmem
      · rcases ht : take_occurrences limit fuel s'.1 s'.2 with m | l0 <;>
          rw [ht] at h <;> simp only [Except.map] at h
        · cases h
        · injection h with h1
          subst h1
          rcases he with _ | ⟨_, hmem⟩
          · exact hpred
          · exact ih s'.1 s'.2 l0 ht e hmem
    · injection h with h1
      subst h1
      cases he

theorem make_event_lt {fuel : Nat} {props : List Property} {offset : Int}
    {limit : OffsetDateTime} {l : List Event}
    (h : make_event fuel props offset limit = .ok l) :
    ∀ e ∈ l, OffsetDateTime.lt e.start limit := by
  unfold make_event at h
  rcases hr : event_rrule props offset with m | r <;> rw [hr] at h <;> dsimp only at h
  · cases h
  · rcases hf : first_event props offset with _ | e0 <;> rw [hf] at h <;> dsimp only at h
    · injection h with h1
      subst h1
      intro e he
      cases he
    · exact take_occurrences_lt fuel r e0 l h

theorem events_of_components_lt {fuel : Nat} {offset : Int} {limit : OffsetDateTime} :
    ∀ (comps : List (List Property)) (l : List Event),
    events_of_components fuel offset limit comps = .ok l →
    ∀ e ∈ l, OffsetDateTime.lt e.start limit := by
  intro comps
  induction comps with
  | nil =>
    intro l h e he
    unfold events_of_components at h
    injection h with h1
    subst h1
    cases he
  | cons comp rest ih =>
    intro l h e he
    unfold events_of_components at h
    rcases h1 : make_event fuel comp offset limit with m | l1 <;> rw [h1] at h <;>
      dsimp only at h
    · cases h
    · rcases h2 : events_of_components fuel offset limit rest with m | l2 <;>
        rw [h2] at h <;> dsimp only at h
      · cases h
      · injection h with h3
        subst h3
        rcases List.mem_append.mp he with hm | hm
        · exact make_event_lt h1 e hm
        · exact ih l2 h2 e hm

/-- C2.  Horizon bound: whenever `parse_ical` returns a calendar, every
event in it starts strictly before the caller's horizon, for any rule
configuration - the `take_while` filter admits an occurrence only after
checking `start < limit`. -/
theorem horizon_bound (fuel : Nat) (cals : List (List (List Property)))
    (offset : Int) (limit : OffsetDateTime) (out : List Event) (e : Event)
    (h : parse_ical fuel cals offset limit = .ok out) (he : e ∈ out) :
    OffsetDateTime.lt e.start limit := by
  unfold parse_ical at h
  rcases hg : events_of_components fuel offset limit cals.flatten with m | evs <;>
    rw [hg] at h <;> dsimp only at h
  · cases h
  · injection h with h1
    subst h1
    exact events_of_components_lt cals.flatten evs hg e
      ((List.mem_insertionSort ev_le).mp he)

set_option maxRecDepth 8000 in
/-- C2 witness: a concrete single-event calendar within the horizon. -/
theorem horizon_bound_witness :
    OffsetDateTime.lt
      (Event.mk "Test" ⟨⟨2024, 1, 13⟩, 30600, 36000⟩ ⟨⟨2024, 1, 13⟩, 34200, 36000⟩).start
      ⟨⟨2024, 2, 10⟩, 0, 36000⟩ :=
  horizon_bound 2
    [[[⟨"SUMMARY", some "Test", none⟩,
       ⟨"DTSTART", some "20240113T083000", some [("TZID", ["Australia/Brisbane"])]⟩,
       ⟨"DTEND", some "20240113T093000", some [("TZID", ["Australia/Brisbane"])]⟩]]]
    36000 ⟨⟨2024, 2, 10⟩, 0, 36000⟩
    [Event.mk "Test" ⟨⟨2024, 1, 13⟩, 30600, 36000⟩ ⟨⟨2024, 1, 13⟩, 34200, 36000⟩]
    (Event.mk "Test" ⟨⟨2024, 1, 13⟩, 30600, 36000⟩ ⟨⟨2024, 1, 13⟩, 34200, 36000⟩)
    (by rfl) (by simp)

theorem filter_orderedInsert_key (s : Int) (x : Event) (l : List Event) :
    (l.orderedInsert ev_le x).filter (fun e => e.start.instant == s) =
      if x.start.instant == s
      then x :: l.filter (fun e => e.start.instant == s)
      else l.filter (fun e => e.start.instant == s) := by
  induction l with
  | nil =>
    simp only [List.orderedInsert, List.filter]
    split_ifs with hx <;> simp [hx]
  | cons b t ih =>
    simp only [List.orderedInsert]
    by_cases hr : ev_le x b
    · rw [if_pos hr]
      by_cases hx : x.start.instant == s <;> simp [List.filter, hx]
    · rw [if_neg hr]
      unfold ev_le at hr
      by_cases hb : b.start.instant == s
      · have hxs : ¬ x.start.instant == s := by
          simp only [beq_iff_eq] at hb ⊢
          omega
        simp [List.filter, hb, hxs, ih]
      · by_cases hx : x.start.instant == s <;> simp [List.filter, hb, hx, ih]

theorem filter_insertionSort_key (s : Int) (l : List Event) :
    (l.insertionSort ev_le).filter (fun e => e.start.instant == s) =
      l.filter (fun e => e.start.instant == s) := by
  induction l with
  | nil => rfl
  | cons x t ih =>
    simp only [List.insertionSort]
    rw [filter_orderedInsert_key, ih]
    by_cases hx : x.start.instant == s <;> simp [List.filter, hx]

/-- C3.  Whenever the unsorted event gathering (generation order across
components and blocks) succeeds, `parse_ical` returns exactly its stable
insertion sort by start instant: the result is non-decreasing in `start`
across its whole length, and for every start instant the events with that
start appear in their original relative order. -/
theorem sorted_and_stable (fuel : Nat) (cals : List (List (List Property)))
    (offset : Int) (limit : OffsetDateTime) (evs : List Event)
    (h : events_of_components fuel offset limit cals.flatten = .ok evs) :
    parse_ical fuel cals offset limit = .ok (evs.insertionSort ev_le) ∧
    List.Sorted ev_le (evs.insertionSort ev_le) ∧
    (∀ s : Int, (evs.insertionSort ev_le).filter (fun e => e.start.instant == s) =
      evs.filter (fun e => e.start.instant == s)) := by
  refine ⟨?_, List.sorted_insertionSort ev_le evs, fun s => filter_insertionSort_key s evs⟩
  unfold parse_ical
  rw [h]

set_option maxRecDepth 8000 in
/-- C3 witness: the single-event calendar again. -/
theorem sorted_and_stable_witness :
    parse_ical 2
        [[[⟨"SUMMARY", some "Test", none⟩,
           ⟨"DTSTART", some "20240113T083000", some [("TZID", ["Australia/Brisbane"])]⟩,
           ⟨"DTEND", some "20240113T093000", some [("TZID", ["Australia/Brisbane"])]⟩]]]
        36000 ⟨⟨2024, 2, 10⟩, 0, 36000⟩ =
      .ok (([Event.mk "Test" ⟨⟨2024, 1, 13⟩, 30600, 36000⟩
          ⟨⟨2024, 1, 13⟩, 34200, 36000⟩]).insertionSort ev_le) ∧
    List.Sorted ev_le
      (([Event.mk "Test" ⟨⟨2024, 1, 13⟩, 30600, 36000⟩
          ⟨⟨2024, 1, 13⟩, 34200, 36000⟩]).insertionSort ev_le) ∧
    (∀ s : Int,
      (([Event.mk "Test" ⟨⟨2024, 1, 13⟩, 30600, 36000⟩
          ⟨⟨2024, 1, 13⟩, 34200, 36000⟩]).insertionSort ev_le).filter
          (fun e => e.start.instant == s) =
        ([Event.mk "Test" ⟨⟨2024, 1, 13⟩, 30600, 36000⟩
          ⟨⟨2024, 1, 13⟩, 34200, 36000⟩]).filter (fun e => e.start.instant == s)) :=
  sorted_and_stable 2
    [[[⟨"SUMMARY", some "Test", none⟩,
       ⟨"DTSTART", some "20240113T083000", some [("TZID", ["Australia/Brisbane"])]⟩,
       ⟨"DTEND", some "20240113T093000", some [("TZID", ["Australia/Brisbane"])]⟩]]]
    36000 ⟨⟨2024, 2, 10⟩, 0, 36000⟩
    [Event.mk "Test" ⟨⟨2024, 1, 13⟩, 30600, 36000⟩ ⟨⟨2024, 1, 13⟩, 34200, 36000⟩]
    (by rfl)


theorem parse_int_core_nonneg {l : List Char} {j : Int}
    (h : (parse_int_core l).1 = some j) : 0 ≤ j := by
  unfold parse_int_core at h
  rcases l with _ | ⟨c, t⟩
  · cases h
  · dsimp only at h
    by_cases hd : c.isDigit
    · rw [if_pos hd] at h
      dsimp only at h
      injection h with he
      subst he
      exact Int.natCast_nonneg _
    · rw [if_neg hd] at h
      cases h

theorem parse_int_nonneg {val : List Char} {j : Int}
    (h : (parse_int val).1 = some j) : 0 ≤ j := by
  unfold parse_int at h
  exact parse_int_core_nonneg h

theorem parse_by_day_nonneg {val : List Char} {w : Weekday} {i : Int}
    (h : parse_by_day val = some (w, i)) : 0 ≤ i := by
  unfold parse_by_day at h
  dsimp only at h
  rcases hpw : parse_weekday (parse_int val).2 with _ | w2 <;> rw [hpw] at h <;>
    simp only [Option.map] at h
  · cases h
  · injection h with he
    have hi : i = (parse_int val).1.getD 0 := (congrArg Prod.snd he).symm
    rw [hi]
    rcases hj : (parse_int val).1 with _ | j
    · simp
    · simpa using parse_int_nonneg hj

theorem parse_fold_by_day :
    ∀ (pairs : List (List Char × List Char)) (f : Option Freq) (acc : RepeatRule)
      (f' : Option Freq) (acc' : RepeatRule),
    (∀ w i, acc.by_day = some (w, i) → 0 ≤ i) →
    parse_fold pairs f acc = .ok (f', acc') →
    ∀ w i, acc'.by_day = some (w, i) → 0 ≤ i := by
  intro pairs
  induction pairs with
  | nil =>
    intro f acc f' acc' hinv h
    unfold parse_fold at h
    injection h with he
    have : acc = acc' := congrArg Prod.snd he
    rw [← this]
    exact hinv
  | cons kv rest ih =>
    intro f acc f' acc' hinv h
    obtain ⟨key, val⟩ := kv
    unfold parse_fold at h
    split_ifs at h with c1 c2 c3 c4 c5 c6
    · exact ih (Freq.parse (String.mk val)) acc f' acc' hinv h
    · rcases hu : try_various_untils (String.mk val) with _ | u <;> rw [hu] at h <;>
        dsimp only at h
      · cases h
      · exact ih f { acc with until_ := some u } f' acc'
          (fun w i hb => hinv w i hb) h
    · exact ih f { acc with by_day := parse_by_day val } f' acc'
        (fun w i hb => parse_by_day_nonneg hb) h
    · rcases hv : parse_u8 val with _ | v <;> rw [hv] at h <;> dsimp only at h
      · cases h
      · exact ih f { acc with by_month_day := some (v : Int) } f' acc'
          (fun w i hb => hinv w i hb) h
    · rcases hv : parse_u32 val with _ | v <;> rw [hv] at h <;> dsimp only at h
      · cases h
      · exact ih f { acc with interval := some v } f' acc'
          (fun w i hb => hinv w i hb) h
    · rcases hv : parse_u32 val with _ | v <;> rw [hv] at h <;> dsimp only at h
      · cases h
      · exact ih f { acc with count := some v } f' acc'
          (fun w i hb => hinv w i hb) h
    · exact ih f acc f' acc' hinv h

/-- Rules produced by `RepeatRule::parse` never carry a negative BYDAY
ordinal: the minus sign read by `parse_int` is dropped (source behaviour). -/
theorem parse_by_day_of_parse {s : String} {r : RepeatRule}
    (hp : RepeatRule.parse s = .ok (some r)) :
    ∀ w i, r.by_day = some (w, i) → 0 ≤ i := by
  unfold RepeatRule.parse at hp
  rcases hf : parse_fold ((split_on_char ';' s.toList).filterMap (split_once '='))
      none ⟨.weekly, none, none, none, none, none⟩ with m | p <;> rw [hf] at hp
  · dsimp only at hp
    cases hp
  · obtain ⟨f, acc⟩ := p
    rcases f with _ | fr
    · dsimp only at hp
      cases hp
    · dsimp only at hp
      injection hp with he
      injection he with he1
      have hfold := parse_fold_by_day _ _ _ _ _ (by intro w i h0; cases h0) hf
      intro w i hbd
      rw [← he1] at hbd
      exact hfold w i hbd

theorem parse_u32_le {l : List Char} {v : Nat} (h : parse_u32 l = some v) :
    v ≤ 4294967295 := by
  unfold parse_u32 at h
  dsimp only at h
  split_ifs at h with h1 h2 h3
  all_goals injection h with he
  omega

/-- Along the key-value fold, the INTERVAL field only ever holds values the
`u32` parse accepted, hence within `u32` range. -/
theorem parse_fold_interval :
    ∀ (pairs : List (List Char × List Char)) (f : Option Freq) (acc : RepeatRule)
      (f' : Option Freq) (acc' : RepeatRule),
    (∀ k, acc.interval = some k → k ≤ 4294967295) →
    parse_fold pairs f acc = .ok (f', acc') →
    ∀ k, acc'.interval = some k → k ≤ 4294967295 := by
  intro pairs
  induction pairs with
  | nil =>
    intro f acc f' acc' hinv h
    unfold parse_fold at h
    injection h with he
    have : acc = acc' := congrArg Prod.snd he
    rw [← this]
    exact hinv
  | cons kv rest ih =>
    intro f acc f' acc' hinv h
    obtain ⟨key, val⟩ := kv
    unfold parse_fold at h
    split_ifs at h with c1 c2 c3 c4 c5 c6
    · exact ih (Freq.parse (String.mk val)) acc f' acc' hinv h
    · rcases hu : try_various_untils (String.mk val) with _ | u <;> rw [hu] at h <;>
        dsimp only at h
      · cases h
      · exact ih f { acc with until_ := some u } f' acc'
          (fun k hk => hinv k hk) h
    · exact ih f { acc with by_day := parse_by_day val } f' acc'
        (fun k hk => hinv k hk) h
    · rcases hv : parse_u8 val with _ | v <;> rw [hv] at h <;> dsimp only at h
      · cases h
      · exact ih f { acc with by_month_day := some (v : Int) } f' acc'
          (fun k hk => hinv k hk) h
    · rcases hv : parse_u32 val with _ | v <;> rw [hv] at h <;> dsimp only at h
      · cases h
      · refine ih f { acc with interval := some v } f' acc' ?_ h
        intro k hk
        injection hk with he
        rw [← he]
        exact parse_u32_le hv
    · rcases hv : parse_u32 val with _ | v <;> rw [hv] at h <;> dsimp only at h
      · cases h
      · exact ih f { acc with count := some v } f' acc'
          (fun k hk => hinv k hk) h
    · exact ih f acc f' acc' hinv h

/-- Rules produced by `RepeatRule::parse` carry an INTERVAL within `u32`
range: Rust's `"..".parse::<u32>()` rejects larger values (and the `expect`
call turns that rejection into a panic). -/
theorem parse_interval_lt {s : String} {r : RepeatRule}
    (hp : RepeatRule.parse s = .ok (some r)) :
    ∀ k, r.interval = some k → k ≤ 4294967295 := by
  unfold RepeatRule.parse at hp
  rcases hf : parse_fold ((split_on_char ';' s.toList).filterMap (split_once '='))
      none ⟨.weekly, none, none, none, none, none⟩ with m | p <;> rw [hf] at hp
  · dsimp only at hp
    cases hp
  · obtain ⟨f, acc⟩ := p
    rcases f with _ | fr
    · dsimp only at hp
      cases hp
    · dsimp only at hp
      injection hp with he
      injection he with he1
      have hfold := parse_fold_interval _ _ _ _ _ (by intro k h0; cases h0) hf
      intro k hint
      rw [← he1] at hint
      exact hfold k hint

theorem month_idx_mk (y m dd : Int) : month_idx ⟨y, m, dd⟩ = 12 * y + m :=
  rfl

theorem lt_of_month_idx_lt {a b : Date}
    (ha1 : 1 ≤ a.month) (ha2 : a.month ≤ 12)
    (hb1 : 1 ≤ b.month) (hb2 : b.month ≤ 12)
    (h : month_idx a < month_idx b) : Date.lt a b := by
  unfold month_idx at h
  unfold Date.lt
  rcases lt_trichotomy a.year b.year with hy | hy | hy
  · exact Or.inl hy
  · right
    exact ⟨hy, Or.inl (by omega)⟩
  · exfalso
    omega

set_option maxRecDepth 8000 in
/-- The monthly re-derivation always moves strictly forward: the produced
date is valid and at least one day after the previous date. -/
theorem monthly_day_ge {r2 : RepeatRule} {ev' : Event} {d : Date}
    (hv : ev'.start.date.Valid)
    (hbd2 : ∀ w i, r2.by_day = some (w, i) → 0 ≤ i)
    (h : monthly_day r2 ev' (add_days 32 ev'.start.date) = .ok d) :
    d.Valid ∧ rata ev'.start.date + 1 ≤ rata d := by
  have hcv : (add_days 32 ev'.start.date).Valid := add_days_valid hv
  have hmi : month_idx ev'.start.date < month_idx (add_days 32 ev'.start.date) := by
    rcases month_idx_add_days_32 hv with he | he <;> omega
  have hdv : d.Valid := monthly_day_valid hcv h
  refine ⟨hdv, ?_⟩
  have main : ∀ x : Int, d = ⟨(add_days 32 ev'.start.date).year,
      (add_days 32 ev'.start.date).month, x⟩ → rata ev'.start.date + 1 ≤ rata d := by
    intro x hde
    have hlt : Date.lt ev'.start.date d := by
      refine lt_of_month_idx_lt hv.1 hv.2.1 ?_ ?_ ?_
      · rw [hde]
        exact hcv.1
      · rw [hde]
        exact hcv.2.1
      · have hmeq : month_idx (⟨(add_days 32 ev'.start.date).year,
            (add_days 32 ev'.start.date).month, x⟩ : Date) =
            month_idx (add_days 32 ev'.start.date) := rfl
        rw [hde, hmeq]
        exact hmi
    have := rata_lt_of_lt hv hdv hlt
    omega
  unfold monthly_day at h
  rcases hbmd : r2.by_month_day with _ | bmd <;> rw [hbmd] at h <;> dsimp only at h
  · rcases hbd : r2.by_day with _ | ⟨w, i⟩ <;> rw [hbd] at h <;> dsimp only at h
    · rcases hrd : (add_days 32 ev'.start.date).replace_day ev'.start.date.day
        with _ | d2 <;> rw [hrd] at h <;> dsimp only at h
      · cases h
      · injection h with he
        subst he
        exact main _ (replace_day_spec hrd).1
    · have hige : 0 ≤ i := hbd2 w i hbd
      split_ifs at h with hipos
      · rcases hr1 : (add_days 32 ev'.start.date).replace_day 1 with _ | c1 <;>
          rw [hr1] at h <;> dsimp only at h
        · cases h
        · rcases hnn : checked_nth_next_occurrence c1 w i.toNat with _ | d2 <;>
            rw [hnn] at h <;> dsimp only at h
          · cases h
          · injection h with he
            subst he
            obtain ⟨hc1e, _, _⟩ := replace_day_spec hr1
            have hc1v : c1.Valid := replace_day_valid hcv hr1
            have hb := nth_next_occurrence_bound hc1v w hnn
            have hlt : Date.lt ev'.start.date c1 := by
              refine lt_of_month_idx_lt hv.1 hv.2.1 ?_ ?_ ?_
              · rw [hc1e]
                exact hcv.1
              · rw [hc1e]
                exact hcv.2.1
              · have hmeq : month_idx (⟨(add_days 32 ev'.start.date).year,
                    (add_days 32 ev'.start.date).month, 1⟩ : Date) =
                    month_idx (add_days 32 ev'.start.date) := rfl
                rw [hc1e, hmeq]
                exact hmi
            have := rata_lt_of_lt hv hc1v hlt
            omega
      · have hiz : i = 0 := by omega
        subst hiz
        rcases hrl : (add_days 32 ev'.start.date).replace_day
            (days_in_year_month (add_days 32 ev'.start.date).year
              (add_days 32 ev'.start.date).month) with _ | cl <;>
          rw [hrl] at h <;> dsimp only at h
        · cases h
        · rw [show checked_nth_prev_occurrence cl w ((-(0 : Int)).toNat) = none from rfl]
            at h
          cases h
  · rcases hrd : (add_days 32 ev'.start.date).replace_day
        (min bmd (days_in_year_month (add_days 32 ev'.start.date).year
          (add_days 32 ev'.start.date).month)) with _ | d2 <;>
      rw [hrd] at h <;> dsimp only at h
    · cases h
    · injection h with he
      subst he
      exact main _ (replace_day_spec hrd).1

set_option maxRecDepth 8000 in
/-- Under the conditions guaranteed for parsed rules (BYDAY ordinal never
negative), a positive interval, and - for the yearly frequency - an
interval whose `as i32` cast is still positive, every emitting call of
`next` moves the start at least one full day forward in absolute time. -/
theorem next_step_strict {r1 r2 : RepeatRule} {ev' e' : Event}
    (hbd : ∀ w i, r1.by_day = some (w, i) → 0 ≤ i)
    (hi : 1 ≤ r1.interval.getD 1)
    (hw : r1.freq = .yearly → 1 ≤ u32_as_i32 (r1.interval.getD 1))
    (hv : ev'.start.date.Valid)
    (h : r1.next ev' = .ok (some (r2, e'))) :
    ev'.start.instant + 86400 ≤ e'.start.instant := by
  obtain ⟨hb, hlike⟩ := next_some_body h
  have hbd2 : ∀ w i, r2.by_day = some (w, i) → 0 ≤ i := by
    intro w i hw2
    exact hbd w i (hlike.2.2.1 ▸ hw2)
  have hi2 : 1 ≤ r2.interval.getD 1 := by
    rw [hlike.2.2.2.2]
    exact hi
  have hw2 : r2.freq = .yearly → 1 ≤ u32_as_i32 (r2.interval.getD 1) := by
    intro hf2
    rw [hlike.2.2.2.2]
    exact hw (hlike.1 ▸ hf2)
  have fin : ∀ dd : Date, rata ev'.start.date + 1 ≤ rata dd →
      r2.finish ev' (ev'.start.replace_date dd) = some e' →
      ev'.start.instant + 86400 ≤ e'.start.instant := by
    intro dd hge hf
    have he := finish_some hf
    rw [he]
    dsimp only
    rw [instant_replace_date]
    omega
  unfold RepeatRule.next_body at hb
  rcases hfr : r2.freq with _ | _ | _ | _ <;> rw [hfr] at hb <;> dsimp only at hb
  · -- daily
    rcases hsd : step_days (r2.interval.getD 1) ev'.start.date with _ | st <;>
      rw [hsd] at hb <;> dsimp only at hb
    · injection hb with he
      cases he
    · injection hb with he
      rw [(step_days_some hsd).1] at he
      refine fin _ ?_ he
      rw [rata_add_days hv]
      omega
  · -- weekly
    rcases hbday : r2.by_day with _ | ⟨w, i⟩ <;> rw [hbday] at hb <;> dsimp only at hb
    · rcases hsd : step_days 7 ev'.start.date with _ | st <;>
        rw [hsd] at hb <;> dsimp only at hb
      · injection hb with he
        cases he
      · injection hb with he
        rw [(step_days_some hsd).1] at he
        refine fin _ ?_ he
        rw [rata_add_days hv]
        omega
    · rcases hco : checked_next_occurrence ev'.start.date w with _ | st <;>
        rw [hco] at hb <;> dsimp only at hb
      · cases hb
      · injection hb with he
        rw [(checked_next_occurrence_spec hco).1] at he
        exact fin _ (next_occurrence_step hv w).2.1 he
  · -- monthly
    rcases hsd : step_days 32 ev'.start.date with _ | c <;>
      rw [hsd] at hb <;> dsimp only at hb
    · injection hb with he
      cases he
    · have hst := (step_days_some hsd).1
      subst hst
      rcases hmd : monthly_day r2 ev' (add_days 32 ev'.start.date) with m | d <;>
        rw [hmd] at hb <;> dsimp only at hb
      · cases hb
      · injection hb with he
        exact fin d (monthly_day_ge hv hbd2 hmd).2 he
  · -- yearly
    have hstep := hw2 hfr
    rcases hry : ev'.start.replace_year
        (ev'.start.date.year + u32_as_i32 (r2.interval.getD 1)) with _ | s <;>
      rw [hry] at hb <;> dsimp only at hb
    · cases hb
    · injection hb with he
      obtain ⟨hse, _, _, hd1, hd2⟩ := replace_year_spec hry
      have hfin := finish_some he
      rw [hfin]
      dsimp only
      rw [hse]
      have htv : (Date.mk (ev'.start.date.year + u32_as_i32 (r2.interval.getD 1))
          ev'.start.date.month ev'.start.date.day).Valid :=
        valid_mk hv.1 hv.2.1 hd1 hd2
      have hlt : Date.lt ev'.start.date ⟨ev'.start.date.year +
          u32_as_i32 (r2.interval.getD 1), ev'.start.date.month, ev'.start.date.day⟩ :=
        Or.inl (by dsimp only; omega)
      have hrlt := rata_lt_of_lt hv htv hlt
      unfold OffsetDateTime.instant
      dsimp only
      omega

/-- Stream growth: with a positive interval and nonnegative BYDAY ordinals
the `n`-th stream element starts at least `n` days after the base event. -/
theorem expand_stream_growth {r0 : RepeatRule} {ev : Event}
    (hv : ev.start.date.Valid)
    (hbd : ∀ w i, r0.by_day = some (w, i) → 0 ≤ i)
    (hi : 1 ≤ r0.interval.getD 1)
    (hw : r0.freq = .yearly → 1 ≤ u32_as_i32 (r0.interval.getD 1)) :
    ∀ (n : Nat) (s : Option RepeatRule × Event),
    expand_state (some r0) ev n = .ok (some s) →
    ev.start.instant + 86400 * n ≤ s.2.start.instant := by
  intro n
  induction n with
  | zero =>
    intro s h
    unfold expand_state at h
    injection h with he
    injection he with he1
    subst he1
    simp
  | succ n ih =>
    intro s h
    unfold expand_state at h
    rcases hp : expand_state (some r0) ev n with m | _ | s0 <;> rw [hp] at h <;>
      dsimp only at h
    · cases h
    · cases h
    · obtain ⟨r1, hr1, hlike⟩ := expand_state_rule n hp
      have hprev := ih s0 hp
      have hvalid := (expand_state_invariant hv n hp).1
      unfold expand_step at h
      rw [hr1] at h
      dsimp only at h
      rcases hn : r1.next s0.2 with m | o2 <;> rw [hn] at h <;>
        simp only [Except.map] at h
      · cases h
      · rcases o2 with _ | p <;> simp only [Option.map] at h
        · cases h
        · injection h with he
          injection he with he1
          subst he1
          have hbd1 : ∀ w i, r1.by_day = some (w, i) → 0 ≤ i := by
            intro w i hw1
            exact hbd w i (hlike.2.2.1 ▸ hw1)
          have hi1 : 1 ≤ r1.interval.getD 1 := by
            rw [hlike.2.2.2.2]
            exact hi
          have hw1 : r1.freq = .yearly → 1 ≤ u32_as_i32 (r1.interval.getD 1) := by
            intro hf1
            rw [hlike.2.2.2.2]
            exact hw (hlike.1 ▸ hf1)
          have hstep := next_step_strict hbd1 hi1 hw1 hvalid hn
          dsimp only
          push_cast
          omega

/-- Termination of driving the expansion stream of rule `r` from base
event `ev` against horizon `limit`: after finitely many pulls the stream
has either ended (or panicked) or produced a start at or past the horizon,
which is exactly when the `take_while(start < limit)` drive stops pulling. -/
def expansion_halts (r : RepeatRule) (ev : Event) (limit : OffsetDateTime) : Prop :=
  ∃ n : Nat, ∀ e : Event, expand_nth (some r) ev n = .ok (some e) →
    ¬ OffsetDateTime.lt e.start limit

/-- Any stream element beyond the base of a yearly rule was emitted through
`replace_year`, so its year is at least the crate's minimum. -/
theorem yearly_emitted_low {r0 : RepeatRule} (hfr : r0.freq = .yearly) {ev : Event}
    {n : Nat} {s : Option RepeatRule × Event}
    (h : expand_state (some r0) ev (n + 1) = .ok (some s)) :
    -9999 ≤ s.2.start.date.year := by
  unfold expand_state at h
  rcases hp : expand_state (some r0) ev n with m | _ | s0 <;> rw [hp] at h <;>
    dsimp only at h
  · cases h
  · cases h
  · obtain ⟨r1, hr1, hlike⟩ := expand_state_rule n hp
    unfold expand_step at h
    rw [hr1] at h
    dsimp only at h
    rcases hn : r1.next s0.2 with m | o2 <;> rw [hn] at h <;>
      simp only [Except.map] at h
    · cases h
    · rcases o2 with _ | p <;> simp only [Option.map] at h
      · cases h
      · injection h with he
        injection he with he1
        subst he1
        exact (yearly_step (hlike.1.trans hfr) hn).2.1

/-- C5 (amended).  For every rule produced by `RepeatRule::parse` with no
UNTIL and no COUNT whose INTERVAL, if present, is at least 1, driving the
expansion from any well-formed base event terminates for every finite
horizon: when every step moves forward (daily, weekly, monthly, and yearly
with an interval below 2^31) the stream passes the horizon after finitely
many steps, and a yearly rule whose `interval as i32` wraps negative
marches backward and is cut off in finitely many steps by the year-cap
panic of `replace_year`.  (With `INTERVAL=0`, which the parser accepts, the
daily and yearly frequencies repeat the same start forever and the drive
does not terminate - see the counterexample.) -/
theorem parsed_rule_expansion_halts (s : String) (r : RepeatRule)
    (hp : RepeatRule.parse s = .ok (some r))
    (hu : r.until_ = none) (hc : r.count = none)
    (hi : ∀ k, r.interval = some k → 1 ≤ k)
    (ev : Event) (hv : ev.start.date.Valid) (limit : OffsetDateTime) :
    expansion_halts r ev limit := by
  have hbd : ∀ w i, r.by_day = some (w, i) → 0 ≤ i := parse_by_day_of_parse hp
  have hig : 1 ≤ r.interval.getD 1 := by
    rcases hr : r.interval with _ | k
    · simp
    · simpa using hi k hr
  by_cases hw : r.freq = .yearly → 1 ≤ u32_as_i32 (r.interval.getD 1)
  · -- every emitting step moves at least one day forward
    refine ⟨(limit.instant - ev.start.instant).toNat, ?_⟩
    intro e he
    unfold expand_nth at he
    rcases hs : expand_state (some r) ev ((limit.instant - ev.start.instant).toNat)
      with m | _ | st <;> rw [hs] at he <;> simp only [Except.map, Option.map] at he
    · cases he
    · cases he
    · injection he with he1
      injection he1 with he2
      subst he2
      have hgrow := expand_stream_growth hv hbd hig hw _ st hs
      unfold OffsetDateTime.lt
      omega
  · -- yearly with a negatively wrapping cast: the year strictly decreases,
    -- and emission keeps it at or above -9999, so emission stops
    push_neg at hw
    obtain ⟨hfr, hneg⟩ := hw
    have hsneg : u32_as_i32 (r.interval.getD 1) ≤ -1 := by
      rcases hrint : r.interval with _ | k
      · rw [hrint] at hneg
        exact absurd hneg (by decide)
      · have hk1 := hi k hrint
        have hk2 := parse_interval_lt hp k hrint
        rw [hrint] at hneg
        simp only [Option.getD_some] at hneg ⊢
        unfold u32_as_i32 at hneg ⊢
        split_ifs at hneg ⊢ with hcase
        · omega
        · omega
    refine ⟨(ev.start.date.year + 10000).toNat + 1, ?_⟩
    intro e he
    exfalso
    unfold expand_nth at he
    rcases hs : expand_state (some r) ev ((ev.start.date.year + 10000).toNat + 1)
      with m | _ | st <;> rw [hs] at he <;> simp only [Except.map, Option.map] at he
    · cases he
    · cases he
    · have hyear := (yearly_state hfr _ hs).1
      have hlow := yearly_emitted_low hfr hs
      have hN0 : (0 : Int) ≤ (((ev.start.date.year + 10000).toNat + 1 : Nat) : Int) :=
        Int.natCast_nonneg _
      have hmul : (((ev.start.date.year + 10000).toNat + 1 : Nat) : Int) *
          u32_as_i32 (r.interval.getD 1) ≤
          -(((ev.start.date.year + 10000).toNat + 1 : Nat) : Int) := by
        calc (((ev.start.date.year + 10000).toNat + 1 : Nat) : Int) *
            u32_as_i32 (r.interval.getD 1) ≤
            (((ev.start.date.year + 10000).toNat + 1 : Nat) : Int) * (-1) :=
              mul_le_mul_of_nonneg_left hsneg hN0
          _ = -(((ev.start.date.year + 10000).toNat + 1 : Nat) : Int) :=
              mul_neg_one _
      obtain ⟨P, hP⟩ : ∃ P : Int,
          (((ev.start.date.year + 10000).toNat + 1 : Nat) : Int) *
            u32_as_i32 (r.interval.getD 1) = P := ⟨_, rfl⟩
      rw [hP] at hyear hmul
      omega

/-- C5 witness: the rule parsed from `FREQ=DAILY` halts against a concrete
horizon. -/
theorem parsed_rule_expansion_halts_witness :
    expansion_halts ⟨.daily, none, none, none, none, none⟩
      (Event.mk "d" ⟨⟨2024, 1, 1⟩, 0, 0⟩ ⟨⟨2024, 1, 1⟩, 3600, 0⟩)
      ⟨⟨2024, 1, 20⟩, 0, 0⟩ :=
  parsed_rule_expansion_halts "FREQ=DAILY" ⟨.daily, none, none, none, none, none⟩
    (by rfl) rfl rfl (by intro k hk; cases hk)
    (Event.mk "d" ⟨⟨2024, 1, 1⟩, 0, 0⟩ ⟨⟨2024, 1, 1⟩, 3600, 0⟩)
    (by decide) ⟨⟨2024, 1, 20⟩, 0, 0⟩

/-- C5 counterexample: `INTERVAL=0` is accepted by the parser, and a daily
rule with interval 0 reproduces the same occurrence forever: the stream
never reaches the horizon, so the `take_while` drive of `parse_ical` never
terminates.  This refutes termination "for any INTERVAL value the parser
accepts". -/
theorem daily_interval_zero_diverges :
    RepeatRule.parse "FREQ=DAILY;INTERVAL=0" =
      .ok (some ⟨.daily, none, none, none, some 0, none⟩) ∧
    ¬ expansion_halts ⟨.daily, none, none, none, some 0, none⟩
        (Event.mk "z" ⟨⟨2024, 1, 1⟩, 0, 0⟩ ⟨⟨2024, 1, 1⟩, 0, 0⟩)
        ⟨⟨2024, 2, 1⟩, 0, 0⟩ := by
  constructor
  · rfl
  · intro ⟨n, hall⟩
    have hconst : ∀ m : Nat,
        expand_state (some ⟨.daily, none, none, none, some 0, none⟩)
          (Event.mk "z" ⟨⟨2024, 1, 1⟩, 0, 0⟩ ⟨⟨2024, 1, 1⟩, 0, 0⟩) m =
        .ok (some (some ⟨.daily, none, none, none, some 0, none⟩,
          Event.mk "z" ⟨⟨2024, 1, 1⟩, 0, 0⟩ ⟨⟨2024, 1, 1⟩, 0, 0⟩)) := by
      intro m
      induction m with
      | zero => rfl
      | succ m ihm =>
        unfold expand_state
        rw [ihm]
        rfl
    have hn : expand_nth (some ⟨.daily, none, none, none, some 0, none⟩)
        (Event.mk "z" ⟨⟨2024, 1, 1⟩, 0, 0⟩ ⟨⟨2024, 1, 1⟩, 0, 0⟩) n =
        .ok (some (Event.mk "z" ⟨⟨2024, 1, 1⟩, 0, 0⟩ ⟨⟨2024, 1, 1⟩, 0, 0⟩)) := by
      unfold expand_nth
      rw [hconst n]
      rfl
    exact hall _ hn (by decide)
